import Mathlib

/-!
Hultan/png: the chunk-stream reader of `main.go`.

A shallow embedding of `src/main.go` (package `main`) and the properties of its
chunk framing that are stated in the specification.

Modelling decisions:

* A byte is a `Fin 256`; a Go `[]byte` value and a Go `string` are lists of bytes.
* The open file `f` is the list of bytes between its read cursor and the end of
  the file (`File.unread`).  `File.Read` follows `(*os.File).Read` on a regular
  file: a zero-length buffer reads nothing and reports no error; at the end of
  the file it returns `0, io.EOF`; otherwise it returns as many bytes as are
  available, at most `len(buffer)` and at most `maxRW` (1 GiB, the limit that
  Go's `internal/poll` puts on one read), with a `nil` error.
* Go's `int` is the 64-bit signed integer (`int64OfNat` wraps explicitly).
* Functions of type `(T, error)` return a `Result T`, which also records a
  run-time panic (`make` with a negative length).
* Every function that reads from the file returns the file after the call.
-/

namespace Png

/-- One byte. -/
abbrev Byte := Fin 256

/-- Go `error` values that the program can meet: `io.EOF`, and the errors built by
`fmt.Errorf("... : %w", err)`. -/
inductive GoError where
  | EOF
  | Errorf (msg : String) (err : GoError)
  deriving DecidableEq, Repr

/-- Result of a Go function with the signature `(T, error)`. -/
inductive Result (α : Type) where
  | ok (v : α)
  | error (err : GoError)
  | panic
  deriving DecidableEq, Repr

/-- Whether a result is the success case `(v, nil)`. -/
def Result.isOk {α : Type} : Result α → Bool
  | .ok _ => true
  | _ => false

/-- The open file: the bytes from the read cursor to the end of the file. -/
structure File where
  unread : List Byte
  deriving DecidableEq, Repr

/-- The constant `maxRW = 1 << 30` of Go's `internal/poll`: one read on a file
transfers at most 1 GiB. -/
def maxRW : Nat := 1 <<< 30

/-- Model of `n, err := f.Read(buffer)` for a regular file, after Go's standard
library (`os.File.Read`, `poll.FD.Read`): a zero-length buffer returns `0, nil`; a
buffer longer than `maxRW` is cut to `maxRW` for the read; a read of no byte is
`io.EOF`. Returns the buffer after the call, `n`, `err` and the file after the call. -/
def File.Read (f : File) (buffer : List Byte) : List Byte × Nat × Option GoError × File :=
  if buffer.length = 0 then
    (buffer, 0, none, f)
  else if f.unread.length = 0 then
    (buffer, 0, some GoError.EOF, f)
  else
    let p := if maxRW < buffer.length then maxRW else buffer.length
    let n := min p f.unread.length
    (f.unread.take n ++ buffer.drop n, n, none, ⟨f.unread.drop n⟩)

/-- The type `chunkType` with its four constants. -/
inductive chunkType where
  | HeaderType
  | DataType
  | EndType
  | OtherType
  deriving DecidableEq, Repr

/-- The struct `chunk`. -/
structure chunk where
  typDesc : List Byte
  typ : chunkType
  size : Int
  data : List Byte
  crc : Nat
  deriving DecidableEq, Repr

/-- The variable `pngSignature`. -/
def pngSignature : List Byte := [137, 80, 78, 71, 13, 10, 26, 10]

/-- The conversion `int(x)` of an unsigned value to the 64-bit signed `int`. -/
def int64OfNat (x : Nat) : Int :=
  if x % 2 ^ 64 < 2 ^ 63 then ((x % 2 ^ 64 : Nat) : Int) else ((x % 2 ^ 64 : Nat) : Int) - 2 ^ 64

/-- The function `binary.BigEndian.Uint32(b)`:
`uint32(b[3]) | uint32(b[2])<<8 | uint32(b[1])<<16 | uint32(b[0])<<24`
(every caller passes a buffer made with length 4). -/
def Uint32 (b : List Byte) : Nat :=
  ((b.getD 3 0).val % 2 ^ 32) ||| (((b.getD 2 0).val <<< 8) % 2 ^ 32) |||
    (((b.getD 1 0).val <<< 16) % 2 ^ 32) ||| (((b.getD 0 0).val <<< 24) % 2 ^ 32)

/-- The string literals of the `switch` in `readChunk`, as bytes. -/
def strIHDR : List Byte := [73, 72, 68, 82]

/-- The literal "IDAT". -/
def strIDAT : List Byte := [73, 68, 65, 84]

/-- The literal "IEND". -/
def strIEND : List Byte := [73, 69, 78, 68]

/-- The `switch string(buff)` of `readChunk`. -/
def classify (s : List Byte) : chunkType :=
  if s = strIHDR then chunkType.HeaderType
  else if s = strIDAT then chunkType.DataType
  else if s = strIEND then chunkType.EndType
  else chunkType.OtherType

/-- The function `readBytes`: allocate `size` zero bytes, issue one `Read`, and return
the buffer unless `Read` reported an error; the count returned by `Read` is dropped. -/
def readBytes (f : File) (size : Int) : Result (List Byte) × File :=
  if size < 0 then
    (Result.panic, f)
  else
    let buffer := List.replicate size.toNat (0 : Byte)
    match f.Read buffer with
    | (_, _, some err, f1) => (Result.error err, f1)
    | (buffer1, _, none, f1) => (Result.ok buffer1, f1)

/-- The function `readChunk`. -/
def readChunk (f : File) : Result chunk × File :=
  match readBytes f 4 with
  | (Result.panic, f1) => (Result.panic, f1)
  | (Result.error err, f1) => (Result.error (GoError.Errorf "error reading chunk size : " err), f1)
  | (Result.ok buff, f1) =>
    let size := int64OfNat (Uint32 buff)
    match readBytes f1 4 with
    | (Result.panic, f2) => (Result.panic, f2)
    | (Result.error err, f2) =>
      (Result.error (GoError.Errorf "error reading chunk type : " err), f2)
    | (Result.ok buff, f2) =>
      let typDesc := buff
      let typ := classify buff
      match readBytes f2 size with
      | (Result.panic, f3) => (Result.panic, f3)
      | (Result.error err, f3) =>
        (Result.error (GoError.Errorf "error reading chunk data : " err), f3)
      | (Result.ok buff, f3) =>
        let data := buff
        match readBytes f3 4 with
        | (Result.panic, f4) => (Result.panic, f4)
        | (Result.error err, f4) =>
          (Result.error (GoError.Errorf "error reading chunk CRC : " err), f4)
        | (Result.ok buff, f4) =>
          (Result.ok ⟨typDesc, typ, size, data, Uint32 buff⟩, f4)

/-- The `for i := range buf1` loop of `compareBytes`, on the two slices from index
`i` on (both have the same length when the loop is entered). -/
def compareBytesLoop : List Byte → List Byte → Bool
  | x :: buf1, y :: buf2 => if x ≠ y then false else compareBytesLoop buf1 buf2
  | _, _ => true

/-- The function `compareBytes`. -/
def compareBytes (buf1 buf2 : List Byte) : Bool :=
  if buf1.length ≠ buf2.length then false
  else compareBytesLoop buf1 buf2

/-- How the chunk loop of `main` stops. -/
inductive Outcome where
  | ended
  | failed (err : GoError)
  | panicked
  | outOfFuel
  deriving DecidableEq, Repr

/-- A run of the chunk loop: the chunks it reported, in order, how it stopped, and
the file when it stopped. -/
structure Run where
  reported : List chunk
  outcome : Outcome
  file : File
  deriving DecidableEq, Repr

/-- The `for` loop of `main` (lines 61-77), with an iteration budget. -/
def chunkLoop : Nat → File → Run
  | 0, f => ⟨[], Outcome.outOfFuel, f⟩
  | fuel + 1, f =>
    match readChunk f with
    | (Result.panic, f1) => ⟨[], Outcome.panicked, f1⟩
    | (Result.error err, f1) => ⟨[], Outcome.failed err, f1⟩
    | (Result.ok c, f1) =>
      if c.typ = chunkType.EndType then ⟨[c], Outcome.ended, f1⟩
      else
        let r := chunkLoop fuel f1
        ⟨c :: r.reported, r.outcome, r.file⟩

/-- The chunk loop of `main` on a file: every iteration that continues has consumed
at least one byte, so one more iteration than there are unread bytes is enough. -/
def readChunks (f : File) : Run :=
  chunkLoop (f.unread.length + 1) f

/-- What `main` does with an opened file. -/
inductive MainRun where
  | signatureError (err : GoError)
  | signaturePanic
  | chunks (valid : Bool) (run : Run)
  deriving DecidableEq, Repr

/-- The function `main` from the opened file on (lines 46-77). -/
def main (f : File) : MainRun :=
  match readBytes f 8 with
  | (Result.panic, _) => MainRun.signaturePanic
  | (Result.error err, _) => MainRun.signatureError err
  | (Result.ok buff, f1) => MainRun.chunks (compareBytes buff pngSignature) (readChunks f1)

/-- The three values that `main` prints for a chunk: `typ`, `typDesc` and `size`. -/
def chunk.printed (c : chunk) : chunkType × List Byte × Int :=
  (c.typ, c.typDesc, c.size)

/-- The `for` loop of `reverseBytes` with its two indices, with an iteration budget:
`none` when the budget runs out or an index is out of range (where Go panics). -/
def reverseBytesLoop : Nat → Int → Int → List Byte → Option (List Byte)
  | 0, _, _, _ => none
  | fuel + 1, i, j, buffert =>
    if i < j then
      if 0 ≤ i ∧ i.toNat < buffert.length ∧ 0 ≤ j ∧ j.toNat < buffert.length then
        reverseBytesLoop fuel (i + 1) (j - 1)
          ((buffert.set i.toNat (buffert.getD j.toNat 0)).set j.toNat (buffert.getD i.toNat 0))
      else none
    else some buffert

/-- The function `reverseBytes`: the slice after the call. -/
def reverseBytes (buffert : List Byte) : Option (List Byte) :=
  reverseBytesLoop (buffert.length + 1) 0 ((buffert.length : Int) - 1) buffert

/-- Replays successful reads: the file after `readChunk` has returned, one after the
other, exactly the given records, none of them of type `EndType`; `none` when
`readChunk` does not return them. -/
def replay : File → List chunk → Option File
  | f, [] => some f
  | f, c :: cs =>
    match readChunk f with
    | (Result.ok c1, f1) =>
      if c1 = c ∧ c.typ ≠ chunkType.EndType then replay f1 cs else none
    | _ => none

/-! ## Writing chunks: the producer side of the format -/

/-- The four bytes that store `v` as a big-endian unsigned 32-bit number. -/
def bigEndian32 (v : Nat) : List Byte :=
  [⟨v / 2 ^ 24 % 256, Nat.mod_lt _ (by decide)⟩, ⟨v / 2 ^ 16 % 256, Nat.mod_lt _ (by decide)⟩,
   ⟨v / 2 ^ 8 % 256, Nat.mod_lt _ (by decide)⟩, ⟨v % 256, Nat.mod_lt _ (by decide)⟩]

/-- A synthetic chunk: a tag, a payload and the bytes of a checksum. -/
structure SynChunk where
  tag : List Byte
  payload : List Byte
  checksum : List Byte
  deriving DecidableEq, Repr

/-- The tag and the checksum have four bytes and the length of the payload fits the
32-bit length field. -/
def SynChunk.wellFormed (r : SynChunk) : Prop :=
  r.tag.length = 4 ∧ r.payload.length < 2 ^ 32 ∧ r.checksum.length = 4

instance (r : SynChunk) : Decidable r.wellFormed := by
  unfold SynChunk.wellFormed
  infer_instance

/-- The bytes of one chunk: big-endian length, tag, payload, checksum. -/
def SynChunk.bytes (r : SynChunk) : List Byte :=
  bigEndian32 r.payload.length ++ r.tag ++ r.payload ++ r.checksum

/-- The bytes of a sequence of chunks, one after the other. -/
def serialise : List SynChunk → List Byte
  | [] => []
  | r :: rs => r.bytes ++ serialise rs

/-- The chunks of a sequence up to and including the first one tagged "IEND". -/
def throughFirstEnd : List SynChunk → List SynChunk
  | [] => []
  | r :: rs => if r.tag = strIEND then [r] else r :: throughFirstEnd rs

/-- Number of bytes that the reads of the given records take from the file: 12 bytes
of length, tag and checksum for each record, plus the bytes of its payload read, which
are `size` bytes, or `maxRW` bytes when `size` is larger. -/
def framesLength : List chunk → Nat
  | [] => 0
  | c :: cs => 12 + min c.size.toNat maxRW + framesLength cs

/-! ## Basic facts about the reads -/

theorem Uint32_eq (b : List Byte) :
    Uint32 b = (b.getD 0 0).val * 2 ^ 24 + (b.getD 1 0).val * 2 ^ 16
      + (b.getD 2 0).val * 2 ^ 8 + (b.getD 3 0).val := by
  unfold Uint32
  have h0 := (b.getD 0 0).isLt
  have h1 := (b.getD 1 0).isLt
  have h2 := (b.getD 2 0).isLt
  have h3 := (b.getD 3 0).isLt
  generalize (b.getD 0 0).val = x0 at *
  generalize (b.getD 1 0).val = x1 at *
  generalize (b.getD 2 0).val = x2 at *
  generalize (b.getD 3 0).val = x3 at *
  simp only [Nat.shiftLeft_eq]
  rw [Nat.mod_eq_of_lt (by omega), Nat.mod_eq_of_lt (by omega), Nat.mod_eq_of_lt (by omega),
    Nat.mod_eq_of_lt (by omega)]
  have e1 : x2 * 2 ^ 8 + x3 = x3 ||| x2 * 2 ^ 8 := by
    rw [Nat.mul_comm, Nat.mul_add_lt_is_or (by omega), Nat.lor_comm]
  have e2 : x1 * 2 ^ 16 + (x2 * 2 ^ 8 + x3) = (x3 ||| x2 * 2 ^ 8) ||| x1 * 2 ^ 16 := by
    rw [Nat.mul_comm, Nat.mul_add_lt_is_or (by omega), Nat.lor_comm, e1]
  have e3 : x0 * 2 ^ 24 + (x1 * 2 ^ 16 + (x2 * 2 ^ 8 + x3))
      = ((x3 ||| x2 * 2 ^ 8) ||| x1 * 2 ^ 16) ||| x0 * 2 ^ 24 := by
    rw [Nat.mul_comm, Nat.mul_add_lt_is_or (by omega), Nat.lor_comm, e2]
  rw [← e3]
  omega

theorem Uint32_lt (b : List Byte) : Uint32 b < 2 ^ 32 := by
  rw [Uint32_eq]
  have h0 := (b.getD 0 0).isLt
  have h1 := (b.getD 1 0).isLt
  have h2 := (b.getD 2 0).isLt
  have h3 := (b.getD 3 0).isLt
  omega

theorem int64OfNat_of_lt (x : Nat) (h : x < 2 ^ 63) : int64OfNat x = (x : Int) := by
  have h1 : x % 2 ^ 64 = x := Nat.mod_eq_of_lt (by omega)
  unfold int64OfNat
  rw [h1, if_pos h]

theorem int64OfNat_Uint32 (b : List Byte) : int64OfNat (Uint32 b) = (Uint32 b : Int) :=
  int64OfNat_of_lt _ (by have := Uint32_lt b; omega)

theorem maxRW_eq : maxRW = 1073741824 := by decide

/-- One `readBytes` on a file with unread bytes `u`, for a non-negative count. -/
theorem readBytes_eq (u : List Byte) (n : Nat) :
    readBytes ⟨u⟩ (n : Int) =
      if 0 < n ∧ u = [] then (Result.error GoError.EOF, ⟨u⟩)
      else (Result.ok (u.take (min n maxRW)
          ++ List.replicate (n - min (min n maxRW) u.length) 0), ⟨u.drop (min n maxRW)⟩) := by
  have hn : ¬ ((n : Int) < 0) := by omega
  unfold readBytes File.Read
  rw [if_neg hn]
  by_cases h0 : n = 0
  · subst h0
    simp
  · by_cases hu : u = []
    · subst hu
      have : 0 < n := by omega
      simp [h0, this]
    · have hp : (if maxRW < n then maxRW else n) = min n maxRW := by
        split <;> omega
      have e1 : List.take (min (min n maxRW) u.length) u = List.take (min n maxRW) u := by
        rcases Nat.le_total (min n maxRW) u.length with h | h
        · rw [Nat.min_eq_left h]
        · rw [Nat.min_eq_right h, List.take_of_length_le h, List.take_of_length_le (le_refl _)]
      have e2 : List.drop (min (min n maxRW) u.length) u = List.drop (min n maxRW) u := by
        rcases Nat.le_total (min n maxRW) u.length with h | h
        · rw [Nat.min_eq_left h]
        · rw [Nat.min_eq_right h, List.drop_of_length_le h, List.drop_of_length_le (le_refl _)]
      simp [h0, hu, hp, e1, e2]
      rw [← Nat.min_assoc, e2]

theorem readBytes_four (u : List Byte) :
    readBytes ⟨u⟩ 4 =
      if u = [] then (Result.error GoError.EOF, ⟨u⟩)
      else (Result.ok (u.take 4 ++ List.replicate (4 - u.length) 0), ⟨u.drop 4⟩) := by
  have h := readBytes_eq u 4
  have hm : min 4 maxRW = 4 := by decide
  rw [hm] at h
  have e : 4 - min 4 u.length = 4 - u.length := by omega
  rw [e] at h
  simpa using h

theorem getD_append_zeros (l : List Byte) (k i : Nat) :
    (l ++ List.replicate k (0 : Byte)).getD i 0 = l.getD i 0 := by
  rcases Nat.lt_or_ge i l.length with h | h
  · rw [List.getD_append _ _ _ _ h]
  · rw [List.getD_append_right _ _ _ _ h, List.getD_eq_default _ _ h]
    simp

theorem Uint32_append_zeros (l : List Byte) (k : Nat) :
    Uint32 (l ++ List.replicate k (0 : Byte)) = Uint32 l := by
  unfold Uint32
  simp only [getD_append_zeros]

/-- The four reads of `readChunk` on a file with unread bytes `u`, written out. -/
theorem readChunk_unfold (u : List Byte) :
    readChunk ⟨u⟩ =
      if u = [] then (Result.error (GoError.Errorf "error reading chunk size : " GoError.EOF), ⟨u⟩)
      else if u.drop 4 = [] then
        (Result.error (GoError.Errorf "error reading chunk type : " GoError.EOF), ⟨u.drop 4⟩)
      else if 0 < Uint32 (u.take 4) ∧ u.drop 8 = [] then
        (Result.error (GoError.Errorf "error reading chunk data : " GoError.EOF), ⟨u.drop 8⟩)
      else if u.drop (8 + min (Uint32 (u.take 4)) maxRW) = [] then
        (Result.error (GoError.Errorf "error reading chunk CRC : " GoError.EOF),
          ⟨u.drop (8 + min (Uint32 (u.take 4)) maxRW)⟩)
      else
        (Result.ok
          ⟨(u.drop 4).take 4 ++ List.replicate (4 - (u.drop 4).length) 0,
           classify ((u.drop 4).take 4 ++ List.replicate (4 - (u.drop 4).length) 0),
           (Uint32 (u.take 4) : Int),
           (u.drop 8).take (min (Uint32 (u.take 4)) maxRW)
             ++ List.replicate
               (Uint32 (u.take 4) - min (min (Uint32 (u.take 4)) maxRW) (u.drop 8).length) 0,
           Uint32 ((u.drop (8 + min (Uint32 (u.take 4)) maxRW)).take 4)⟩,
         ⟨u.drop (12 + min (Uint32 (u.take 4)) maxRW)⟩) := by
  unfold readChunk
  rw [readBytes_four]
  by_cases h1 : u = []
  · simp [h1]
  · simp only [h1, if_false]
    rw [readBytes_four]
    by_cases h2 : u.drop 4 = []
    · simp [h2]
    · simp only [h2, if_false]
      rw [Uint32_append_zeros, int64OfNat_Uint32, readBytes_eq]
      have e8 : List.drop 4 (List.drop 4 u) = List.drop 8 u := by simp
      rw [e8]
      by_cases h3 : 0 < Uint32 (u.take 4) ∧ u.drop 8 = []
      · simp [h3]
      · simp only [h3, if_false]
        rw [readBytes_four]
        have e9 : List.drop (min (Uint32 (List.take 4 u)) maxRW) (List.drop 8 u)
            = List.drop (8 + min (Uint32 (List.take 4 u)) maxRW) u := by
          simp [Nat.add_comm]
        rw [e9]
        by_cases h4 : u.drop (8 + min (Uint32 (u.take 4)) maxRW) = []
        · simp [h4]
        · simp only [h4, if_false]
          rw [Uint32_append_zeros]
          have e12 : List.drop 4 (List.drop (8 + min (Uint32 (List.take 4 u)) maxRW) u)
              = List.drop (12 + min (Uint32 (List.take 4 u)) maxRW) u := by
            simp; congr 1; omega
          rw [e12]

/-- A chunk whose last field starts inside the file is read successfully: the record
and the cursor after the call. The payload read takes `size` bytes, or `maxRW` bytes
when `size` is larger; the rest of `data` is then left at zero and the checksum is
read from where the payload read stopped. -/
theorem readChunk_of_lt (u : List Byte)
    (h : 8 + min (Uint32 (u.take 4)) maxRW < u.length) :
    readChunk ⟨u⟩ =
      (Result.ok
        ⟨(u.drop 4).take 4, classify ((u.drop 4).take 4), (Uint32 (u.take 4) : Int),
         (u.drop 8).take (min (Uint32 (u.take 4)) maxRW)
           ++ List.replicate (Uint32 (u.take 4) - min (Uint32 (u.take 4)) maxRW) 0,
         Uint32 ((u.drop (8 + min (Uint32 (u.take 4)) maxRW)).take 4)⟩,
       ⟨u.drop (12 + min (Uint32 (u.take 4)) maxRW)⟩) := by
  rw [readChunk_unfold]
  have h1 : u ≠ [] := by
    intro e; rw [e] at h; simp at h
  have h2 : u.drop 4 ≠ [] := by
    rw [Ne, List.drop_eq_nil_iff]; omega
  have h3 : ¬ (0 < Uint32 (u.take 4) ∧ u.drop 8 = []) := by
    rw [List.drop_eq_nil_iff]; omega
  have h4 : u.drop (8 + min (Uint32 (u.take 4)) maxRW) ≠ [] := by
    rw [Ne, List.drop_eq_nil_iff]; omega
  have l4 : 4 - (u.drop 4).length = 0 := by
    rw [List.length_drop]; omega
  have l8 : min (min (Uint32 (u.take 4)) maxRW) (u.drop 8).length
      = min (Uint32 (u.take 4)) maxRW := by
    rw [List.length_drop]; omega
  simp only [h1, h2, h3, h4, if_false, l4, l8, List.replicate_zero, List.append_nil]

/-- A chunk whose last field does not start inside the file is not read: `readChunk`
returns an error (never a panic) and leaves the file at its end. -/
theorem readChunk_of_ge (u : List Byte)
    (h : u.length ≤ 8 + min (Uint32 (u.take 4)) maxRW) :
    ∃ msg, readChunk ⟨u⟩ = (Result.error (GoError.Errorf msg GoError.EOF), ⟨[]⟩) := by
  rw [readChunk_unfold]
  by_cases h1 : u = []
  · exact ⟨"error reading chunk size : ", by simp [h1]⟩
  · by_cases h2 : u.drop 4 = []
    · exact ⟨"error reading chunk type : ", by simp [h1, h2]⟩
    · by_cases h3 : 0 < Uint32 (u.take 4) ∧ u.drop 8 = []
      · exact ⟨"error reading chunk data : ", by
          simp only [h1, h2, h3, if_false, if_true, and_self]⟩
      · have h4 : u.drop (8 + min (Uint32 (u.take 4)) maxRW) = [] := by
          rw [List.drop_eq_nil_iff]; omega
        exact ⟨"error reading chunk CRC : ", by simp only [h1, h2, h3, h4, if_false, if_true]⟩

/-! ## The chunk loop -/

/-- The outcome of `readChunk` by cases on whether the checksum read starts inside
the unread bytes. -/
theorem readChunk_cases (u : List Byte) :
    (8 + min (Uint32 (u.take 4)) maxRW < u.length ∧
      readChunk ⟨u⟩ =
        (Result.ok
          ⟨(u.drop 4).take 4, classify ((u.drop 4).take 4), (Uint32 (u.take 4) : Int),
           (u.drop 8).take (min (Uint32 (u.take 4)) maxRW)
             ++ List.replicate (Uint32 (u.take 4) - min (Uint32 (u.take 4)) maxRW) 0,
           Uint32 ((u.drop (8 + min (Uint32 (u.take 4)) maxRW)).take 4)⟩,
         ⟨u.drop (12 + min (Uint32 (u.take 4)) maxRW)⟩)) ∨
    (u.length ≤ 8 + min (Uint32 (u.take 4)) maxRW ∧
      ∃ msg, readChunk ⟨u⟩ = (Result.error (GoError.Errorf msg GoError.EOF), ⟨[]⟩)) := by
  rcases Nat.lt_or_ge (8 + min (Uint32 (u.take 4)) maxRW) u.length with h | h
  · exact Or.inl ⟨h, readChunk_of_lt u h⟩
  · exact Or.inr ⟨h, readChunk_of_ge u h⟩

/-- A successful `readChunk` leaves strictly fewer unread bytes. -/
theorem readChunk_ok_length (f f1 : File) (c : chunk) (h : readChunk f = (Result.ok c, f1)) :
    f1.unread.length < f.unread.length := by
  obtain ⟨u⟩ := f
  rcases readChunk_cases u with ⟨hlt, e⟩ | ⟨_, msg, e⟩
  · rw [e] at h
    simp only [Prod.mk.injEq, Result.ok.injEq] at h
    rw [← h.2]
    simp only [List.length_drop]
    omega
  · rw [e] at h
    simp at h

/-- The loop does not depend on the iteration budget once the budget exceeds the
number of unread bytes. -/
theorem chunkLoop_fuel (n : Nat) : ∀ (m : Nat) (f : File),
    f.unread.length < n → f.unread.length < m → chunkLoop n f = chunkLoop m f := by
  induction n with
  | zero => intro m f hn _; omega
  | succ n ih =>
    intro m f hn hm
    cases m with
    | zero => omega
    | succ m =>
      unfold chunkLoop
      rcases hr : readChunk f with ⟨r, f1⟩
      cases r with
      | panic => rfl
      | error err => rfl
      | ok c =>
        have hl := readChunk_ok_length f f1 c hr
        simp only
        rw [ih m f1 (by omega) (by omega)]

/-- One iteration of the loop of `main`, without the iteration budget. -/
theorem readChunks_step (f : File) :
    readChunks f =
      match readChunk f with
      | (Result.panic, f1) => ⟨[], Outcome.panicked, f1⟩
      | (Result.error err, f1) => ⟨[], Outcome.failed err, f1⟩
      | (Result.ok c, f1) =>
        if c.typ = chunkType.EndType then ⟨[c], Outcome.ended, f1⟩
        else ⟨c :: (readChunks f1).reported, (readChunks f1).outcome, (readChunks f1).file⟩ := by
  unfold readChunks
  rw [chunkLoop]
  rcases hr : readChunk f with ⟨r, f1⟩
  cases r with
  | panic => rfl
  | error err => rfl
  | ok c =>
    have hl := readChunk_ok_length f f1 c hr
    simp only
    rw [chunkLoop_fuel f.unread.length (f1.unread.length + 1) f1 hl (by omega)]

/-- A complete chunk at the cursor, given by its four fields, with a payload of at most
`maxRW` bytes, followed by any bytes. -/
theorem readChunk_append (hdr tag payload crc t : List Byte) (hh : hdr.length = 4)
    (ht : tag.length = 4) (hc : crc.length = 4) (hL : Uint32 hdr = payload.length)
    (hcap : payload.length ≤ maxRW) :
    readChunk ⟨hdr ++ tag ++ payload ++ crc ++ t⟩ =
      (Result.ok ⟨tag, classify tag, (payload.length : Int), payload, Uint32 crc⟩, ⟨t⟩) := by
  have e1 : (hdr ++ tag ++ payload ++ crc ++ t).take 4 = hdr := by
    rw [List.append_assoc, List.append_assoc, List.append_assoc, List.take_left' hh]
  have e2 : (hdr ++ tag ++ payload ++ crc ++ t).drop 4 = tag ++ (payload ++ (crc ++ t)) := by
    rw [List.append_assoc, List.append_assoc, List.append_assoc, List.drop_left' hh]
  have e3 : (hdr ++ tag ++ payload ++ crc ++ t).drop 8 = payload ++ (crc ++ t) := by
    rw [List.append_assoc, List.append_assoc,
      List.drop_left' (by rw [List.length_append]; omega : (hdr ++ tag).length = 8)]
  have e4 : (hdr ++ tag ++ payload ++ crc ++ t).drop (8 + payload.length) = crc ++ t := by
    rw [List.append_assoc,
      List.drop_left' (by simp only [List.length_append]; omega :
        (hdr ++ tag ++ payload).length = 8 + payload.length)]
  have e5 : (hdr ++ tag ++ payload ++ crc ++ t).drop (12 + payload.length) = t := by
    rw [List.drop_left' (by simp only [List.length_append]; omega :
        (hdr ++ tag ++ payload ++ crc).length = 12 + payload.length)]
  have hm : min payload.length maxRW = payload.length := Nat.min_eq_left hcap
  have hlt : 8 + min (Uint32 ((hdr ++ tag ++ payload ++ crc ++ t).take 4)) maxRW
      < (hdr ++ tag ++ payload ++ crc ++ t).length := by
    rw [e1, hL, hm]; simp only [List.length_append]; omega
  rw [readChunk_of_lt _ hlt, e1, hL, hm, e2, e3, e4, e5, List.take_left' ht, List.take_left' rfl,
    List.take_left' hc, Nat.sub_self, List.replicate_zero, List.append_nil]

theorem Uint32_bigEndian32 (v : Nat) (h : v < 2 ^ 32) : Uint32 (bigEndian32 v) = v := by
  rw [Uint32_eq]
  simp only [bigEndian32, List.getD_cons_zero, List.getD_cons_succ]
  omega

theorem classify_eq_EndType (s : List Byte) : classify s = chunkType.EndType ↔ s = strIEND := by
  unfold classify
  by_cases h1 : s = strIHDR
  · subst h1; decide
  · by_cases h2 : s = strIDAT
    · subst h2; decide
    · by_cases h3 : s = strIEND
      · subst h3; decide
      · simp [h1, h2, h3]

/-- Reading one serialised chunk whose payload has at most `maxRW` bytes gives back its
fields and stops right after it. -/
theorem readChunk_bytes (r : SynChunk) (t : List Byte) (h : r.wellFormed)
    (hcap : r.payload.length ≤ maxRW) :
    readChunk ⟨r.bytes ++ t⟩ =
      (Result.ok ⟨r.tag, classify r.tag, (r.payload.length : Int), r.payload,
        Uint32 r.checksum⟩, ⟨t⟩) := by
  obtain ⟨ht, hp, hc⟩ := h
  unfold SynChunk.bytes
  exact readChunk_append _ _ _ _ _ rfl ht hc (Uint32_bigEndian32 _ hp) hcap

/-- What a successful `readChunk` returns, from the unread bytes. -/
theorem readChunk_ok_inv (u : List Byte) (c : chunk) (f1 : File)
    (h : readChunk ⟨u⟩ = (Result.ok c, f1)) :
    8 + min (Uint32 (u.take 4)) maxRW < u.length ∧
      c = ⟨(u.drop 4).take 4, classify ((u.drop 4).take 4), (Uint32 (u.take 4) : Int),
           (u.drop 8).take (min (Uint32 (u.take 4)) maxRW)
             ++ List.replicate (Uint32 (u.take 4) - min (Uint32 (u.take 4)) maxRW) 0,
           Uint32 ((u.drop (8 + min (Uint32 (u.take 4)) maxRW)).take 4)⟩ ∧
      f1 = ⟨u.drop (12 + min (Uint32 (u.take 4)) maxRW)⟩ := by
  rcases readChunk_cases u with ⟨hlt, e⟩ | ⟨_, msg, e⟩
  · rw [e] at h
    simp only [Prod.mk.injEq, Result.ok.injEq] at h
    exact ⟨hlt, h.1.symm, h.2.symm⟩
  · rw [e] at h
    simp at h

/-- The function `readChunk` never panics. -/
theorem readChunk_ne_panic (f f1 : File) : readChunk f ≠ (Result.panic, f1) := by
  obtain ⟨u⟩ := f
  intro h
  rcases readChunk_cases u with ⟨_, e⟩ | ⟨_, msg, e⟩ <;> rw [e] at h <;> simp at h

/-- Induction along the iterations of the chunk loop. -/
theorem readChunks_induction (P : File → Run → Prop)
    (herr : ∀ f err f1, readChunk f = (Result.error err, f1) → P f ⟨[], Outcome.failed err, f1⟩)
    (hend : ∀ f c f1, readChunk f = (Result.ok c, f1) → c.typ = chunkType.EndType →
      P f ⟨[c], Outcome.ended, f1⟩)
    (hstep : ∀ f c f1, readChunk f = (Result.ok c, f1) → c.typ ≠ chunkType.EndType →
      P f1 (readChunks f1) →
      P f ⟨c :: (readChunks f1).reported, (readChunks f1).outcome, (readChunks f1).file⟩) :
    ∀ f, P f (readChunks f) := by
  have key : ∀ n (f : File), f.unread.length < n → P f (readChunks f) := by
    intro n
    induction n with
    | zero => intro f hf; omega
    | succ n ih =>
      intro f hf
      rw [readChunks_step]
      rcases hr : readChunk f with ⟨r, f1⟩
      cases r with
      | panic => exact absurd hr (readChunk_ne_panic f f1)
      | error err => exact herr f err f1 hr
      | ok c =>
        have hl := readChunk_ok_length f f1 c hr
        by_cases he : c.typ = chunkType.EndType
        · simp only [he, if_true]
          exact hend f c f1 hr he
        · simp only [he, if_false]
          exact hstep f c f1 hr he (ih f1 (by omega))
  intro f
  exact key (f.unread.length + 1) f (by omega)

theorem classify_eq_HeaderType (s : List Byte) :
    classify s = chunkType.HeaderType ↔ s = strIHDR := by
  unfold classify
  by_cases h1 : s = strIHDR
  · subst h1; decide
  · by_cases h2 : s = strIDAT
    · subst h2; decide
    · by_cases h3 : s = strIEND
      · subst h3; decide
      · simp [h1, h2, h3]

theorem classify_eq_DataType (s : List Byte) :
    classify s = chunkType.DataType ↔ s = strIDAT := by
  unfold classify
  by_cases h1 : s = strIHDR
  · subst h1; decide
  · by_cases h2 : s = strIDAT
    · subst h2; decide
    · by_cases h3 : s = strIEND
      · subst h3; decide
      · simp [h1, h2, h3]

theorem classify_eq_OtherType (s : List Byte) :
    classify s = chunkType.OtherType ↔ s ≠ strIHDR ∧ s ≠ strIDAT ∧ s ≠ strIEND := by
  unfold classify
  by_cases h1 : s = strIHDR
  · subst h1; decide
  · by_cases h2 : s = strIDAT
    · subst h2; decide
    · by_cases h3 : s = strIEND
      · subst h3; decide
      · simp [h1, h2, h3]

theorem compareBytesLoop_iff (a : List Byte) :
    ∀ b : List Byte, a.length = b.length → (compareBytesLoop a b = true ↔ a = b) := by
  induction a with
  | nil =>
    intro b hb
    cases b with
    | nil => simp [compareBytesLoop]
    | cons y b => simp at hb
  | cons x a ih =>
    intro b hb
    cases b with
    | nil => simp at hb
    | cons y b =>
      have hl : a.length = b.length := by simpa using hb
      by_cases hxy : x = y
      · simp [compareBytesLoop, hxy, ih b hl]
      · simp [compareBytesLoop, hxy]

theorem compareBytes_eq_true (a b : List Byte) : compareBytes a b = true ↔ a = b := by
  unfold compareBytes
  by_cases hl : a.length = b.length
  · simp only [ne_eq, hl, not_true_eq_false, if_false]
    exact compareBytesLoop_iff a b hl
  · simp only [ne_eq, hl, not_false_eq_true, if_true]
    constructor
    · intro h; exact absurd h (by decide)
    · intro h; exact absurd (congrArg List.length h) hl

/-- The signature read on a file with at least eight unread bytes. -/
theorem readBytes_eight (u : List Byte) (h : 8 ≤ u.length) :
    readBytes ⟨u⟩ 8 = (Result.ok (u.take 8), ⟨u.drop 8⟩) := by
  have h1 := readBytes_eq u 8
  have hu : u ≠ [] := by
    intro e; rw [e] at h; simp at h
  have hm : min 8 maxRW = 8 := by decide
  have h0 : 8 - min 8 u.length = 0 := by omega
  rw [hm, h0] at h1
  simpa [hu] using h1

/-! ## Windows of a byte list -/

theorem take_drop_take (u : List Byte) (N k m : Nat) (h : k + m ≤ N) :
    ((u.take N).drop k).take m = (u.drop k).take m := by
  rw [List.drop_take, List.take_take, Nat.min_eq_left (by omega)]

theorem take_drop_append_left (a b : List Byte) (k m : Nat) (h : k + m ≤ a.length) :
    ((a ++ b).drop k).take m = (a.drop k).take m := by
  rw [List.drop_append_of_le_length (by omega),
    List.take_append_of_le_length (by rw [List.length_drop]; omega)]

theorem getD_take_drop (u : List Byte) (k n i : Nat) (h : i < n) :
    ((u.drop k).take n).getD i 0 = u.getD (k + i) 0 := by
  simp only [List.getD_eq_getElem?_getD, List.getElem?_take_of_lt h, List.getElem?_drop]

theorem window_congr (u v : List Byte) (N k m : Nat) (huv : v.take N = u.take N)
    (h : k + m ≤ N) : (v.drop k).take m = (u.drop k).take m := by
  rw [← take_drop_take v N k m h, huv, take_drop_take u N k m h]

/-- A successful `readChunk` looks only at the bytes that its four reads take, 12 bytes
and the payload bytes read: the cursor ends right after them, and any file that starts
with the same bytes gives the same record. -/
theorem readChunk_congr (u v : List Byte) (c : chunk) (f1 : File)
    (h : readChunk ⟨u⟩ = (Result.ok c, f1))
    (huv : v.take (12 + min c.size.toNat maxRW) = u.take (12 + min c.size.toNat maxRW)) :
    f1 = ⟨u.drop (12 + min c.size.toNat maxRW)⟩ ∧
      readChunk ⟨v⟩ = (Result.ok c, ⟨v.drop (12 + min c.size.toNat maxRW)⟩) := by
  obtain ⟨hlt, hc, hf⟩ := readChunk_ok_inv u c f1 h
  have hs : c.size.toNat = Uint32 (u.take 4) := by
    rw [hc]; simp
  rw [hs] at huv ⊢
  generalize hL : Uint32 (u.take 4) = L at *
  generalize hM : min L maxRW = M at *
  have e1 : v.take 4 = u.take 4 := by
    have := window_congr u v (12 + M) 0 4 huv (by omega)
    simpa using this
  have hlen : (v.take (12 + M)).length = (u.take (12 + M)).length := by rw [huv]
  simp only [List.length_take] at hlen
  have hlt2 : 8 + min (Uint32 (v.take 4)) maxRW < v.length := by
    rw [e1, hL, hM]; omega
  refine ⟨hf, ?_⟩
  rw [readChunk_of_lt v hlt2, e1, hL, hM, hc,
    window_congr u v (12 + M) 4 4 huv (by omega),
    window_congr u v (12 + M) 8 M huv (by omega),
    window_congr u v (12 + M) (8 + M) 4 huv (by omega)]

/-- In a record returned by `readChunk`, `typ` is the class of `typDesc`. -/
theorem readChunk_typ (f f1 : File) (c : chunk) (h : readChunk f = (Result.ok c, f1)) :
    c.typ = classify c.typDesc := by
  obtain ⟨u⟩ := f
  obtain ⟨_, hc, _⟩ := readChunk_ok_inv u c f1 h
  rw [hc]

/-- A reported chunk tagged "IEND" is the last one reported, the loop ends normally,
and the file is left as the read of that chunk left it. -/
theorem readChunks_end_last (f : File) :
    ∀ (i : Nat) (c : chunk), (readChunks f).reported[i]? = some c → c.typDesc = strIEND →
      i + 1 = (readChunks f).reported.length ∧ (readChunks f).outcome = Outcome.ended ∧
        ∃ f0, readChunk f0 = (Result.ok c, (readChunks f).file) := by
  refine readChunks_induction
    (fun _ run => ∀ (i : Nat) (c : chunk), run.reported[i]? = some c → c.typDesc = strIEND →
      i + 1 = run.reported.length ∧ run.outcome = Outcome.ended ∧
        ∃ f0, readChunk f0 = (Result.ok c, run.file)) ?_ ?_ ?_ f
  · intro f err f1 _ i c hi _
    simp at hi
  · intro f c0 f1 hr _ i c hi _
    cases i with
    | zero =>
      simp only [List.getElem?_cons_zero, Option.some.injEq] at hi
      subst hi
      exact ⟨rfl, rfl, f, hr⟩
    | succ j => simp at hi
  · intro f c0 f1 hr hne ih i c hi hc
    cases i with
    | zero =>
      simp only [List.getElem?_cons_zero, Option.some.injEq] at hi
      subst hi
      have := readChunk_typ f f1 c0 hr
      rw [hc] at this
      exact absurd this hne
    | succ j =>
      simp only [List.getElem?_cons_succ] at hi
      obtain ⟨h1, h2, h3⟩ := ih j c hi hc
      exact ⟨by simp only [List.length_cons]; omega, h2, h3⟩

/-- A run that ends normally has read exactly the frames of the chunks it reports, and
depends on no byte after them. -/
theorem readChunks_ended_congr (f : File) :
    (readChunks f).outcome = Outcome.ended →
      (readChunks f).file = ⟨f.unread.drop (framesLength (readChunks f).reported)⟩ ∧
      ∀ v : List Byte,
        v.take (framesLength (readChunks f).reported)
          = f.unread.take (framesLength (readChunks f).reported) →
        readChunks ⟨v⟩ = ⟨(readChunks f).reported, Outcome.ended,
          ⟨v.drop (framesLength (readChunks f).reported)⟩⟩ := by
  refine readChunks_induction
    (fun f run => run.outcome = Outcome.ended →
      run.file = ⟨f.unread.drop (framesLength run.reported)⟩ ∧
      ∀ v : List Byte,
        v.take (framesLength run.reported) = f.unread.take (framesLength run.reported) →
        readChunks ⟨v⟩ = ⟨run.reported, Outcome.ended, ⟨v.drop (framesLength run.reported)⟩⟩)
    ?_ ?_ ?_ f
  · intro f err f1 _ h
    simp at h
  · intro f c f1 hr he _
    obtain ⟨u⟩ := f
    simp only [framesLength, Nat.add_zero]
    refine ⟨(readChunk_congr u u c f1 hr rfl).1, ?_⟩
    intro v hv
    rw [readChunks_step, (readChunk_congr u v c f1 hr hv).2]
    simp only [he, if_true]
  · intro f c f1 hr hne ih hout
    obtain ⟨u⟩ := f
    obtain ⟨ih1, ih2⟩ := ih hout
    have hf1 := (readChunk_congr u u c f1 hr rfl).1
    subst hf1
    simp only [framesLength]
    refine ⟨?_, ?_⟩
    · rw [ih1]
      simp only [List.drop_drop, File.mk.injEq]
    · intro v hv
      have hv1 : v.take (12 + min c.size.toNat maxRW)
          = u.take (12 + min c.size.toNat maxRW) := by
        have := window_congr u v _ 0 (12 + min c.size.toNat maxRW) hv (by omega)
        simpa using this
      have hv2 : (v.drop (12 + min c.size.toNat maxRW)).take (framesLength (readChunks
          ⟨u.drop (12 + min c.size.toNat maxRW)⟩).reported)
          = (u.drop (12 + min c.size.toNat maxRW)).take (framesLength (readChunks
          ⟨u.drop (12 + min c.size.toNat maxRW)⟩).reported) :=
        window_congr u v _ _ _ hv (le_refl _)
      rw [readChunks_step, (readChunk_congr u v c _ hr hv1).2]
      simp only [hne, if_false]
      rw [ih2 _ hv2]
      simp only [List.drop_drop, Run.mk.injEq, File.mk.injEq, true_and]

/-! ## A payload longer than one read -/

/-- A complete chunk whose payload is longer than `maxRW`: the payload read stops after
`maxRW` bytes without an error, so `data` ends in zero bytes, and the checksum read
and the cursor follow from where the payload read stopped. -/
theorem readChunk_above_limit (hdr tag payload rest : List Byte) (hh : hdr.length = 4)
    (ht : tag.length = 4) (hL : Uint32 hdr = payload.length) (hbig : maxRW < payload.length) :
    readChunk ⟨hdr ++ tag ++ payload ++ rest⟩ =
      (Result.ok ⟨tag, classify tag, (payload.length : Int),
          payload.take maxRW ++ List.replicate (payload.length - maxRW) 0,
          Uint32 ((payload.drop maxRW ++ rest).take 4)⟩,
        ⟨(payload.drop maxRW ++ rest).drop 4⟩) := by
  have e1 : (hdr ++ tag ++ payload ++ rest).take 4 = hdr := by
    rw [List.append_assoc, List.append_assoc, List.take_left' hh]
  have e2 : (hdr ++ tag ++ payload ++ rest).drop 4 = tag ++ (payload ++ rest) := by
    rw [List.append_assoc, List.append_assoc, List.drop_left' hh]
  have e3 : (hdr ++ tag ++ payload ++ rest).drop 8 = payload ++ rest := by
    rw [List.append_assoc,
      List.drop_left' (by rw [List.length_append]; omega : (hdr ++ tag).length = 8)]
  have e4 : (hdr ++ tag ++ payload ++ rest).drop (8 + maxRW) = payload.drop maxRW ++ rest := by
    rw [← List.drop_drop, e3, List.drop_append_of_le_length (by omega)]
  have e5 : (hdr ++ tag ++ payload ++ rest).drop (12 + maxRW)
      = (payload.drop maxRW ++ rest).drop 4 := by
    rw [show 12 + maxRW = (8 + maxRW) + 4 by omega, ← List.drop_drop, e4]
  have hm : min payload.length maxRW = maxRW := Nat.min_eq_right (by omega)
  have hlt : 8 + min (Uint32 ((hdr ++ tag ++ payload ++ rest).take 4)) maxRW
      < (hdr ++ tag ++ payload ++ rest).length := by
    rw [e1, hL, hm]; simp only [List.length_append]; omega
  rw [readChunk_of_lt _ hlt, e1, hL, hm, e2, e3, e4, e5, List.take_left' ht,
    List.take_append_of_le_length (by omega)]

/-- The chunk "IDAT" with a payload of `maxRW + 1` bytes 170 and the checksum bytes
1, 2, 3, 4, complete in the file: the record returned has a last payload byte 0, a
`crc` made of the last payload byte and the first three checksum bytes, and the cursor
is left before the last checksum byte. -/
theorem readChunk_one_byte_above_limit :
    readChunk ⟨[64, 0, 0, 1] ++ strIDAT ++ List.replicate (maxRW + 1) 170 ++ [1, 2, 3, 4]⟩ =
      (Result.ok ⟨strIDAT, chunkType.DataType, ((maxRW + 1 : Nat) : Int),
        List.replicate maxRW 170 ++ [0], 0xaa010203⟩, ⟨[4]⟩) := by
  have h := readChunk_above_limit [64, 0, 0, 1] strIDAT (List.replicate (maxRW + 1) 170)
    [1, 2, 3, 4] rfl rfl (by rw [List.length_replicate]; decide)
    (by rw [List.length_replicate]; omega)
  rw [h, List.length_replicate, List.take_replicate, List.drop_replicate,
    Nat.min_eq_left (Nat.le_succ maxRW), Nat.add_sub_cancel_left]
  have hc : classify strIDAT = chunkType.DataType := by decide
  have hcrc : Uint32 ((List.replicate 1 (170 : Byte) ++ [1, 2, 3, 4]).take 4) = 0xaa010203 := by
    decide
  have hd : (List.replicate 1 (170 : Byte) ++ [1, 2, 3, 4]).drop 4 = [4] := by decide
  rw [hc, hcrc, hd]
  rfl

/-! ## One chunk cut short -/

theorem SynChunk.bytes_windows (r : SynChunk) (h : r.wellFormed) :
    r.bytes.length = 12 + r.payload.length ∧
      Uint32 (r.bytes.take 4) = r.payload.length ∧
      (r.bytes.drop 4).take 4 = r.tag ∧
      (r.bytes.drop 8).take r.payload.length = r.payload ∧
      r.bytes.drop (8 + r.payload.length) = r.checksum := by
  obtain ⟨ht, hp, hc⟩ := h
  have hh : (bigEndian32 r.payload.length).length = 4 := rfl
  unfold SynChunk.bytes
  refine ⟨?_, ?_, ?_, ?_, ?_⟩
  · simp only [List.length_append, hh, ht, hc]
    omega
  · rw [List.append_assoc, List.append_assoc, List.take_left' hh, Uint32_bigEndian32 _ hp]
  · rw [List.append_assoc, List.append_assoc, List.drop_left' hh, List.take_left' ht]
  · rw [List.append_assoc,
      List.drop_left' (by rw [List.length_append, hh, ht] :
        (bigEndian32 r.payload.length ++ r.tag).length = 8),
      List.take_left' rfl]
  · rw [List.drop_left' (by simp only [List.length_append, hh, ht] :
        (bigEndian32 r.payload.length ++ r.tag ++ r.payload).length = 8 + r.payload.length)]

/-- A chunk with a payload of at most `maxRW` bytes, cut inside its length, tag or
payload field (or right before its checksum), is rejected with an error that wraps
`io.EOF`. -/
theorem readChunk_cut_before_checksum (r : SynChunk) (k : Nat) (h : r.wellFormed)
    (hcap : r.payload.length ≤ maxRW) (hk : k ≤ 8 + r.payload.length) :
    ∃ msg, readChunk ⟨r.bytes.take k⟩ = (Result.error (GoError.Errorf msg GoError.EOF), ⟨[]⟩) := by
  obtain ⟨hlen, hL, _, _, _⟩ := r.bytes_windows h
  apply readChunk_of_ge
  rw [List.length_take]
  rcases Nat.lt_or_ge k 4 with h4 | h4
  · omega
  · rw [List.take_take, Nat.min_eq_left h4, hL, Nat.min_eq_left hcap]
    omega

/-- A chunk with a payload of at most `maxRW` bytes, cut inside its checksum field, is
accepted: the record has the tag, size and payload of the chunk, and a `crc` made of
the checksum bytes that are left. -/
theorem readChunk_cut_in_checksum (r : SynChunk) (k : Nat) (h : r.wellFormed)
    (hcap : r.payload.length ≤ maxRW)
    (hk1 : 8 + r.payload.length < k) (hk2 : k < 12 + r.payload.length) :
    readChunk ⟨r.bytes.take k⟩ =
      (Result.ok ⟨r.tag, classify r.tag, (r.payload.length : Int), r.payload,
        Uint32 (r.checksum.take (k - (8 + r.payload.length)))⟩, ⟨[]⟩) := by
  obtain ⟨hlen, hL, htag, hpay, hcrc⟩ := r.bytes_windows h
  have hm : min r.payload.length maxRW = r.payload.length := Nat.min_eq_left hcap
  have e1 : (r.bytes.take k).take 4 = r.bytes.take 4 := by
    rw [List.take_take, Nat.min_eq_left (by omega)]
  have hlt : 8 + min (Uint32 ((r.bytes.take k).take 4)) maxRW < (r.bytes.take k).length := by
    rw [e1, hL, hm, List.length_take]
    omega
  have e5 : (r.bytes.take k).drop (12 + r.payload.length) = [] := by
    rw [List.drop_eq_nil_iff, List.length_take]
    omega
  rw [readChunk_of_lt _ hlt, e1, hL, hm, take_drop_take _ _ _ _ (by omega),
    take_drop_take _ _ _ _ (by omega), htag, hpay, List.drop_take, hcrc, e5, List.take_take,
    Nat.min_eq_right (by omega), Nat.sub_self, List.replicate_zero, List.append_nil]

/-! ## How the loop stops -/

/-- The loop of `main` stops right after an `EndType` chunk or with a read error, and
reports at most as many chunks as there are unread bytes. -/
theorem readChunks_stops (f : File) :
    (((readChunks f).outcome = Outcome.ended ∧
        ∃ c, (readChunks f).reported.getLast? = some c ∧ c.typ = chunkType.EndType) ∨
      ∃ e, (readChunks f).outcome = Outcome.failed e) ∧
      (readChunks f).reported.length ≤ f.unread.length := by
  refine readChunks_induction
    (fun f run =>
      ((run.outcome = Outcome.ended ∧
          ∃ c, run.reported.getLast? = some c ∧ c.typ = chunkType.EndType) ∨
        ∃ e, run.outcome = Outcome.failed e) ∧
      run.reported.length ≤ f.unread.length) ?_ ?_ ?_ f
  · intro f err f1 _
    exact ⟨Or.inr ⟨err, rfl⟩, Nat.zero_le _⟩
  · intro f c f1 hr he
    have hl := readChunk_ok_length f f1 c hr
    exact ⟨Or.inl ⟨rfl, c, rfl, he⟩, by simp only [List.length_singleton]; omega⟩
  · intro f c f1 hr _ ih
    have hl := readChunk_ok_length f f1 c hr
    obtain ⟨ih1, ih2⟩ := ih
    refine ⟨?_, by simp only [List.length_cons]; omega⟩
    rcases ih1 with ⟨ho, c1, hc1, he1⟩ | ⟨e, he⟩
    · refine Or.inl ⟨ho, c1, ?_, he1⟩
      rw [List.getLast?_cons, hc1]
      rfl
    · exact Or.inr ⟨e, he⟩

/-- The function `readBytes` does not panic on a non-negative count. -/
theorem readBytes_ne_panic (f f1 : File) (n : Int) (hn : 0 ≤ n) :
    readBytes f n ≠ (Result.panic, f1) := by
  obtain ⟨u⟩ := f
  obtain ⟨k, rfl⟩ := Int.eq_ofNat_of_zero_le hn
  rw [readBytes_eq]
  split <;> simp

/-- The function `readChunk` fails exactly when one of its four reads fails; the error
wraps the error of the first read that fails, and the file is left as that read left it. -/
theorem readChunk_error_iff (f f1 : File) (e : GoError) :
    readChunk f = (Result.error e, f1) ↔
      (∃ e0, readBytes f 4 = (Result.error e0, f1) ∧
        e = GoError.Errorf "error reading chunk size : " e0) ∨
      (∃ b1 g1 e0, readBytes f 4 = (Result.ok b1, g1) ∧
        readBytes g1 4 = (Result.error e0, f1) ∧
        e = GoError.Errorf "error reading chunk type : " e0) ∨
      (∃ b1 g1 b2 g2 e0, readBytes f 4 = (Result.ok b1, g1) ∧
        readBytes g1 4 = (Result.ok b2, g2) ∧
        readBytes g2 (int64OfNat (Uint32 b1)) = (Result.error e0, f1) ∧
        e = GoError.Errorf "error reading chunk data : " e0) ∨
      (∃ b1 g1 b2 g2 b3 g3 e0, readBytes f 4 = (Result.ok b1, g1) ∧
        readBytes g1 4 = (Result.ok b2, g2) ∧
        readBytes g2 (int64OfNat (Uint32 b1)) = (Result.ok b3, g3) ∧
        readBytes g3 4 = (Result.error e0, f1) ∧
        e = GoError.Errorf "error reading chunk CRC : " e0) := by
  constructor
  · intro h
    unfold readChunk at h
    split at h
    · simp at h
    · rename_i err g1 h1
      simp only [Prod.mk.injEq, Result.error.injEq] at h
      obtain ⟨he, hf⟩ := h
      subst hf
      exact Or.inl ⟨err, h1, he.symm⟩
    · rename_i b1 g1 h1
      split at h
      · simp at h
      · rename_i err g2 h2
        simp only [Prod.mk.injEq, Result.error.injEq] at h
        obtain ⟨he, hf⟩ := h
        subst hf
        exact Or.inr (Or.inl ⟨b1, g1, err, h1, h2, he.symm⟩)
      · rename_i b2 g2 h2
        dsimp only at h
        split at h
        · simp at h
        · rename_i err g3 h3
          simp only [Prod.mk.injEq, Result.error.injEq] at h
          obtain ⟨he, hf⟩ := h
          subst hf
          exact Or.inr (Or.inr (Or.inl ⟨b1, g1, b2, g2, err, h1, h2, h3, he.symm⟩))
        · rename_i b3 g3 h3
          split at h
          · simp at h
          · rename_i err g4 h4
            simp only [Prod.mk.injEq, Result.error.injEq] at h
            obtain ⟨he, hf⟩ := h
            subst hf
            exact Or.inr (Or.inr (Or.inr ⟨b1, g1, b2, g2, b3, g3, err, h1, h2, h3, h4, he.symm⟩))
          · simp at h
  · intro h
    unfold readChunk
    rcases h with ⟨e0, h1, he⟩ | ⟨b1, g1, e0, h1, h2, he⟩ | ⟨b1, g1, b2, g2, e0, h1, h2, h3, he⟩ |
      ⟨b1, g1, b2, g2, b3, g3, e0, h1, h2, h3, h4, he⟩
    · simp only [h1, he]
    · simp only [h1, h2, he]
    · simp only [h1, h2, h3, he]
    · simp only [h1, h2, h3, h4, he]

/-- After the reads replayed by `replay`, the loop goes on from the file they leave. -/
theorem readChunks_of_replay (cs : List chunk) :
    ∀ f fk : File, replay f cs = some fk →
      readChunks f = ⟨cs ++ (readChunks fk).reported, (readChunks fk).outcome,
        (readChunks fk).file⟩ := by
  induction cs with
  | nil =>
    intro f fk h
    simp only [replay, Option.some.injEq] at h
    subst h
    rfl
  | cons c cs ih =>
    intro f fk h
    unfold replay at h
    split at h
    · rename_i c1 g1 h1
      split at h
      · rename_i hc
        obtain ⟨hc1, hne⟩ := hc
        subst hc1
        rw [readChunks_step, h1]
        simp only [hne, if_false]
        rw [ih g1 fk h]
        rfl
      · simp at h
    · simp at h

/-- A run that stops with an error has reported exactly the records that `readChunk`
returned before the failing call, and leaves the file as the failing call left it. -/
theorem readChunks_failed_replay (f : File) :
    ∀ e, (readChunks f).outcome = Outcome.failed e →
      ∃ fk, replay f (readChunks f).reported = some fk ∧
        readChunk fk = (Result.error e, (readChunks f).file) := by
  refine readChunks_induction
    (fun f run => ∀ e, run.outcome = Outcome.failed e →
      ∃ fk, replay f run.reported = some fk ∧ readChunk fk = (Result.error e, run.file))
    ?_ ?_ ?_ f
  · intro f err f1 hr e he
    simp only [Outcome.failed.injEq] at he
    subst he
    exact ⟨f, rfl, hr⟩
  · intro f c f1 _ _ e he
    simp at he
  · intro f c f1 hr hne ih e he
    obtain ⟨fk, h1, h2⟩ := ih e he
    refine ⟨fk, ?_, h2⟩
    simp only [replay, hr, hne, ne_eq, not_false_eq_true, and_self, if_true]
    exact h1

/-! ## Reversal in place -/

theorem set_length_append (a b : List Byte) (y w : Byte) :
    (a ++ y :: b).set a.length w = a ++ w :: b := by
  induction a with
  | nil => rfl
  | cons x a ih => simp only [List.cons_append, List.length_cons, List.set_cons_succ, ih]

theorem getD_length_append (a b : List Byte) (y d : Byte) :
    (a ++ y :: b).getD a.length d = y := by
  induction a with
  | nil => rfl
  | cons x a ih => simp only [List.cons_append, List.length_cons, List.getD_cons_succ, ih]

/-- One exchange of the loop: the bytes at the two ends of the middle part change
places. -/
theorem swap_ends (pre mid post : List Byte) (x y : Byte) :
    ((pre ++ (x :: (mid ++ [y])) ++ post).set pre.length
        ((pre ++ (x :: (mid ++ [y])) ++ post).getD (pre.length + 1 + mid.length) 0)).set
        (pre.length + 1 + mid.length)
        ((pre ++ (x :: (mid ++ [y])) ++ post).getD pre.length 0)
      = (pre ++ [y]) ++ mid ++ ([x] ++ post) := by
  have e1 : pre ++ (x :: (mid ++ [y])) ++ post = pre ++ x :: (mid ++ y :: post) := by simp
  have e2 : pre ++ (x :: (mid ++ [y])) ++ post = (pre ++ x :: mid) ++ y :: post := by simp
  have l2 : (pre ++ x :: mid).length = pre.length + 1 + mid.length := by
    simp only [List.length_append, List.length_cons]; omega
  have g1 : (pre ++ (x :: (mid ++ [y])) ++ post).getD pre.length 0 = x := by
    rw [e1, getD_length_append]
  have g2 : (pre ++ (x :: (mid ++ [y])) ++ post).getD (pre.length + 1 + mid.length) 0 = y := by
    rw [e2, ← l2, getD_length_append]
  rw [g1, g2, e1, set_length_append]
  have e3 : pre ++ y :: (mid ++ y :: post) = (pre ++ y :: mid) ++ y :: post := by simp
  have l3 : (pre ++ y :: mid).length = pre.length + 1 + mid.length := by
    simp only [List.length_append, List.length_cons]; omega
  rw [e3, ← l3, set_length_append]
  simp

/-- The loop of `reverseBytes`, started at the two ends of the middle part of a slice
with a sufficient budget, reverses the middle part and leaves the rest. -/
theorem reverseBytesLoop_eq (fuel : Nat) :
    ∀ (mid pre post : List Byte) (i j : Int), mid.length < 2 * fuel →
      i = (pre.length : Int) → j = (pre.length : Int) + (mid.length : Int) - 1 →
      reverseBytesLoop fuel i j (pre ++ mid ++ post) = some (pre ++ mid.reverse ++ post) := by
  induction fuel with
  | zero => intro mid pre post i j h; omega
  | succ fuel ih =>
    intro mid pre post i j h hi hj
    unfold reverseBytesLoop
    cases mid with
    | nil =>
      have hlt : ¬ i < j := by simp only [List.length_nil] at hj; omega
      rw [if_neg hlt]
      rfl
    | cons x rest =>
      rcases List.eq_nil_or_concat rest with hnil | ⟨mid1, y, hrest⟩
      · subst hnil
        have hlt : ¬ i < j := by simp only [List.length_singleton] at hj; omega
        rw [if_neg hlt]
        rfl
      · rw [List.concat_eq_append] at hrest
        subst hrest
        simp only [List.length_cons, List.length_append, List.length_nil] at h hj
        have hlt : i < j := by omega
        have hit : i.toNat = pre.length := by omega
        have hjt : j.toNat = pre.length + 1 + mid1.length := by omega
        have hb : 0 ≤ i ∧ i.toNat < (pre ++ x :: (mid1 ++ [y]) ++ post).length ∧ 0 ≤ j ∧
            j.toNat < (pre ++ x :: (mid1 ++ [y]) ++ post).length := by
          simp only [List.length_cons, List.length_append, List.length_nil]
          omega
        rw [if_pos hlt, if_pos hb, hit, hjt, swap_ends]
        rw [ih mid1 (pre ++ [y]) ([x] ++ post) (i + 1) (j - 1) (by omega)
          (by simp only [List.length_append, List.length_cons, List.length_nil]; omega)
          (by simp only [List.length_append, List.length_cons, List.length_nil]; omega)]
        simp

/-- The function `reverseBytes` returns the reversed slice. -/
theorem reverseBytes_eq (b : List Byte) : reverseBytes b = some b.reverse := by
  unfold reverseBytes
  have h := reverseBytesLoop_eq (b.length + 1) b [] [] 0 ((b.length : Int) - 1) (by omega)
    (by simp) (by simp)
  simpa using h

/-! ## Round trip within the read limit -/

/-- The chunk loop, run on the serialisation of a list of well-formed chunks whose
payloads have at most `maxRW` bytes, reports one record per input chunk up to and
including the first "IEND", in the same order, with `typDesc` the tag, `size` the
payload length and `data` the payload (and `typ` the class of the tag, `crc` the value
of the checksum bytes); it ends normally when there is an "IEND" and otherwise with
the end-of-file error of the next length read. -/
theorem roundtrip_within_read_limit (rs : List SynChunk)
    (h : ∀ r ∈ rs, r.wellFormed ∧ r.payload.length ≤ maxRW) :
    (readChunks ⟨serialise rs⟩).reported =
        (throughFirstEnd rs).map (fun r =>
          ({ typDesc := r.tag, typ := classify r.tag, size := (r.payload.length : Int),
             data := r.payload, crc := Uint32 r.checksum } : chunk)) ∧
      (readChunks ⟨serialise rs⟩).outcome =
        (if ∃ r ∈ rs, r.tag = strIEND then Outcome.ended
         else Outcome.failed (GoError.Errorf "error reading chunk size : " GoError.EOF)) := by
  induction rs with
  | nil => exact ⟨by decide, by decide⟩
  | cons r rs ih =>
    have hr := h r (List.mem_cons_self _ _)
    have ih1 := ih (fun x hx => h x (List.mem_cons_of_mem _ hx))
    rw [readChunks_step]
    simp only [serialise, readChunk_bytes r _ hr.1 hr.2, classify_eq_EndType, throughFirstEnd]
    by_cases he : r.tag = strIEND
    · simp [he]
    · simp [he, ih1.1, ih1.2]

/-- On a source that holds a complete chunk with a payload of at most `maxRW` bytes,
`readChunk` succeeds and `crc` is the big-endian value of the four bytes after the
payload; with any other four bytes in their place `readChunk` succeeds as well and
returns the same `typDesc`, `typ`, `size` and `data` (and the same cursor), with `crc`
the value of the new bytes. -/
theorem checksum_captured_within_read_limit (u crc1 : List Byte)
    (h : 12 + Uint32 (u.take 4) ≤ u.length) (hcap : Uint32 (u.take 4) ≤ maxRW)
    (hc : crc1.length = 4) :
    ∃ c f1, readChunk ⟨u⟩ = (Result.ok c, f1) ∧
      c.crc = (u.getD (8 + Uint32 (u.take 4)) 0).val * 2 ^ 24
        + (u.getD (8 + Uint32 (u.take 4) + 1) 0).val * 2 ^ 16
        + (u.getD (8 + Uint32 (u.take 4) + 2) 0).val * 2 ^ 8
        + (u.getD (8 + Uint32 (u.take 4) + 3) 0).val ∧
      c.crc < 2 ^ 32 ∧
      readChunk ⟨u.take (8 + Uint32 (u.take 4)) ++ crc1 ++ u.drop (12 + Uint32 (u.take 4))⟩ =
        (Result.ok ⟨c.typDesc, c.typ, c.size, c.data, Uint32 crc1⟩, f1) := by
  have hm : min (Uint32 (u.take 4)) maxRW = Uint32 (u.take 4) := Nat.min_eq_left hcap
  refine ⟨_, _, readChunk_of_lt u (by omega), ?_, Uint32_lt _, ?_⟩
  · simp only
    rw [hm, Uint32_eq, getD_take_drop _ _ _ _ (by omega), getD_take_drop _ _ _ _ (by omega),
      getD_take_drop _ _ _ _ (by omega), getD_take_drop _ _ _ _ (by omega)]
    rfl
  · rw [hm, Nat.sub_self, List.replicate_zero, List.append_nil]
    generalize hL : Uint32 (u.take 4) = L at *
    have hmL : min L maxRW = L := hm
    have hA : (u.take (8 + L)).length = 8 + L := by
      rw [List.length_take]; omega
    have e1 : (u.take (8 + L) ++ crc1 ++ u.drop (12 + L)).take 4 = u.take 4 := by
      have := take_drop_append_left (u.take (8 + L)) (crc1 ++ u.drop (12 + L)) 0 4 (by omega)
      rw [List.append_assoc]
      simp only [List.drop_zero] at this
      rw [this, List.take_take, Nat.min_eq_left (by omega)]
    have e2 : ((u.take (8 + L) ++ crc1 ++ u.drop (12 + L)).drop 4).take 4
        = (u.drop 4).take 4 := by
      rw [List.append_assoc, take_drop_append_left _ _ 4 4 (by omega),
        take_drop_take _ _ _ _ (by omega)]
    have e3 : ((u.take (8 + L) ++ crc1 ++ u.drop (12 + L)).drop 8).take L
        = (u.drop 8).take L := by
      rw [List.append_assoc, take_drop_append_left _ _ 8 L (by omega),
        take_drop_take _ _ _ _ (by omega)]
    have e4 : (u.take (8 + L) ++ crc1 ++ u.drop (12 + L)).drop (8 + L)
        = crc1 ++ u.drop (12 + L) := by
      rw [List.append_assoc, List.drop_left' hA]
    have e5 : (u.take (8 + L) ++ crc1 ++ u.drop (12 + L)).drop (12 + L) = u.drop (12 + L) := by
      rw [List.drop_left' (by rw [List.length_append, hA, hc]; omega)]
    have hlt : 8 + min (Uint32 ((u.take (8 + L) ++ crc1 ++ u.drop (12 + L)).take 4)) maxRW
        < (u.take (8 + L) ++ crc1 ++ u.drop (12 + L)).length := by
      rw [e1, hL, hmL]
      simp only [List.length_append, hA, hc]
      omega
    rw [readChunk_of_lt _ hlt, e1, hL, hmL, e2, e3, e4, e5, List.take_left' hc, Nat.sub_self,
      List.replicate_zero, List.append_nil]

/-- On a file with at least `12 + L` unread bytes, `L` the big-endian value of the next
four and at most `maxRW`, `readChunk` succeeds with `size = L` and leaves the file
exactly `12 + L` bytes further, at the first byte after the checksum; a following
`readChunk` therefore decodes its length from the four bytes at that offset. -/
theorem cursor_advance_within_read_limit (u : List Byte)
    (h : 12 + Uint32 (u.take 4) ≤ u.length) (hcap : Uint32 (u.take 4) ≤ maxRW) :
    ∃ c, readChunk ⟨u⟩ = (Result.ok c, ⟨u.drop (12 + Uint32 (u.take 4))⟩) ∧
      c.size = (Uint32 (u.take 4) : Int) ∧
      (u.drop (12 + Uint32 (u.take 4))).length + (12 + Uint32 (u.take 4)) = u.length ∧
      ∀ c2 f2, readChunk ⟨u.drop (12 + Uint32 (u.take 4))⟩ = (Result.ok c2, f2) →
        c2.size = (Uint32 ((u.drop (12 + Uint32 (u.take 4))).take 4) : Int) := by
  have hm : min (Uint32 (u.take 4)) maxRW = Uint32 (u.take 4) := Nat.min_eq_left hcap
  have hr := readChunk_of_lt u (by omega)
  rw [hm] at hr
  refine ⟨_, hr, rfl, ?_, ?_⟩
  · rw [List.length_drop]
    omega
  · intro c2 f2 h2
    obtain ⟨_, hc, _⟩ := readChunk_ok_inv _ c2 f2 h2
    rw [hc]

/-! ## The claims -/

/-- C1 (round-trip framing), evaluated where it fails: the well-formed chunk "IDAT"
with a payload of `maxRW + 1 = 2^30 + 1` bytes 170 and the checksum bytes 1, 2, 3, 4,
serialised and complete in the file. The payload read stops after `maxRW` bytes with
no error, so the loop reports a record whose `data` is not the payload (its last byte
is 0, not 170) and whose `crc` is not that of the checksum bytes, and then fails on
the last checksum byte, which it takes for the start of a next chunk. -/
theorem roundtrip_fails_above_read_limit :
    (⟨strIDAT, List.replicate (maxRW + 1) 170, [1, 2, 3, 4]⟩ : SynChunk).wellFormed ∧
    readChunks ⟨serialise [⟨strIDAT, List.replicate (maxRW + 1) 170, [1, 2, 3, 4]⟩]⟩ =
      ⟨[⟨strIDAT, chunkType.DataType, ((maxRW + 1 : Nat) : Int),
          List.replicate maxRW 170 ++ [0], 0xaa010203⟩],
        Outcome.failed (GoError.Errorf "error reading chunk type : " GoError.EOF), ⟨[]⟩⟩ ∧
    List.replicate maxRW (170 : Byte) ++ [0] ≠ List.replicate (maxRW + 1) 170 ∧
    (0xaa010203 : Nat) ≠ Uint32 [1, 2, 3, 4] := by
  have hlen : (List.replicate (maxRW + 1) (170 : Byte)).length = maxRW + 1 :=
    List.length_replicate _ _
  have hhdr : bigEndian32 (maxRW + 1) = [64, 0, 0, 1] := by decide
  refine ⟨⟨rfl, by rw [hlen]; decide, rfl⟩, ?_, ?_, by decide⟩
  · have hb : serialise [⟨strIDAT, List.replicate (maxRW + 1) 170, [1, 2, 3, 4]⟩]
        = [64, 0, 0, 1] ++ strIDAT ++ List.replicate (maxRW + 1) 170 ++ [1, 2, 3, 4] := by
      simp only [serialise, SynChunk.bytes, hlen, hhdr, List.append_nil]
    have hnext : readChunks ⟨[4]⟩ =
        ⟨[], Outcome.failed (GoError.Errorf "error reading chunk type : " GoError.EOF), ⟨[]⟩⟩ := by
      decide
    rw [hb, readChunks_step, readChunk_one_byte_above_limit]
    simp only [reduceCtorEq, if_false, hnext]
  · rw [List.replicate_succ']
    intro h
    have h2 := List.append_cancel_left h
    exact absurd h2 (by decide)

/-- C2 (truncation detection), evaluated where it fails: the one-chunk stream
`00 00 00 00 "IEND" 01 02 03 04` cut at offset 10, inside the checksum field, is not
rejected: `readChunk` returns a record whose `crc` is built from the two bytes that are
left and two zero bytes, and the chunk loop ends normally. -/
theorem truncated_checksum_accepted :
    (serialise [⟨strIEND, [], [1, 2, 3, 4]⟩]).take 10 = [0, 0, 0, 0, 73, 69, 78, 68, 1, 2] ∧
    readChunk ⟨(serialise [⟨strIEND, [], [1, 2, 3, 4]⟩]).take 10⟩ =
      (Result.ok ⟨strIEND, chunkType.EndType, 0, [], 0x01020000⟩, ⟨[]⟩) ∧
    readChunks ⟨(serialise [⟨strIEND, [], [1, 2, 3, 4]⟩]).take 10⟩ =
      ⟨[⟨strIEND, chunkType.EndType, 0, [], 0x01020000⟩], Outcome.ended, ⟨[]⟩⟩ ∧
    main ⟨pngSignature ++ (serialise [⟨strIEND, [], [1, 2, 3, 4]⟩]).take 10⟩ =
      MainRun.chunks true
        ⟨[⟨strIEND, chunkType.EndType, 0, [], 0x01020000⟩], Outcome.ended, ⟨[]⟩⟩ := by
  decide

/-- C3 (exact-read primitive), evaluated where it fails: with two bytes left in the
file, `readBytes(f, 4)` reports no error and returns a four-byte buffer whose last two
bytes are the zeros of the allocation, not bytes of the source. -/
theorem readBytes_short_read_accepted :
    readBytes ⟨[1, 2]⟩ 4 = (Result.ok [1, 2, 0, 0], ⟨[]⟩) := by
  decide

/-- C5 (payload-length invariant): whenever `readChunk` succeeds, the length of `data`
equals `size`, and `size` is the number decoded from the first four unread bytes. -/
theorem payload_length_eq_size (f f1 : File) (c : chunk)
    (h : readChunk f = (Result.ok c, f1)) :
    (c.data.length : Int) = c.size ∧ c.size = (Uint32 (f.unread.take 4) : Int) := by
  obtain ⟨u⟩ := f
  obtain ⟨hlt, hc, _⟩ := readChunk_ok_inv u c f1 h
  subst hc
  simp only [List.length_append, List.length_replicate, List.length_take, List.length_drop,
    and_true, Nat.cast_inj]
  omega

/-- Witness for C5: a chunk "IDAT" with a two-byte payload. -/
theorem payload_length_eq_size_witness :
    readChunk ⟨[0, 0, 0, 2, 73, 68, 65, 84, 5, 6, 0, 0, 0, 1, 9]⟩ =
        (Result.ok ⟨strIDAT, chunkType.DataType, 2, [5, 6], 1⟩, ⟨[9]⟩) ∧
      ((([5, 6] : List Byte).length : Int) = 2 ∧
        (2 : Int) = (Uint32 (([0, 0, 0, 2, 73, 68, 65, 84, 5, 6, 0, 0, 0, 1, 9] : List Byte).take 4)
          : Int)) :=
  ⟨by decide,
   payload_length_eq_size ⟨[0, 0, 0, 2, 73, 68, 65, 84, 5, 6, 0, 0, 0, 1, 9]⟩ ⟨[9]⟩
     ⟨strIDAT, chunkType.DataType, 2, [5, 6], 1⟩ (by decide)⟩

/-- C6 (type classification): for a successfully read chunk, `typDesc` is the four
tag bytes (unread bytes 4 to 7) verbatim, `typ` is `HeaderType` exactly for "IHDR",
`DataType` exactly for "IDAT", `EndType` exactly for "IEND" and `OtherType` exactly for
every other tag; and the tag never makes the read fail: with any other four bytes in
its place the read succeeds as well, with the same size, data, checksum and cursor. -/
theorem type_classification (u : List Byte) (c : chunk) (f1 : File)
    (h : readChunk ⟨u⟩ = (Result.ok c, f1)) :
    c.typDesc = (u.drop 4).take 4 ∧ c.typDesc.length = 4 ∧
      (c.typ = chunkType.HeaderType ↔ c.typDesc = strIHDR) ∧
      (c.typ = chunkType.DataType ↔ c.typDesc = strIDAT) ∧
      (c.typ = chunkType.EndType ↔ c.typDesc = strIEND) ∧
      (c.typ = chunkType.OtherType ↔
        c.typDesc ≠ strIHDR ∧ c.typDesc ≠ strIDAT ∧ c.typDesc ≠ strIEND) ∧
      (∀ tag : List Byte, tag.length = 4 →
        readChunk ⟨u.take 4 ++ tag ++ u.drop 8⟩ =
          (Result.ok ⟨tag, classify tag, c.size, c.data, c.crc⟩, f1)) := by
  obtain ⟨hlt, hc, hf⟩ := readChunk_ok_inv u c f1 h
  subst hc hf
  refine ⟨rfl, ?_, classify_eq_HeaderType _, classify_eq_DataType _, classify_eq_EndType _,
    classify_eq_OtherType _, ?_⟩
  · simp only [List.length_take, List.length_drop]
    omega
  · intro tag ht
    have h4 : (u.take 4).length = 4 := by
      rw [List.length_take]; omega
    have e1 : (u.take 4 ++ tag ++ u.drop 8).take 4 = u.take 4 := by
      rw [List.append_assoc, List.take_left' h4]
    have e2 : (u.take 4 ++ tag ++ u.drop 8).drop 4 = tag ++ u.drop 8 := by
      rw [List.append_assoc, List.drop_left' h4]
    have h8 : (u.take 4 ++ tag).length = 8 := by
      rw [List.length_append, h4, ht]
    have e3 : ∀ k, (u.take 4 ++ tag ++ u.drop 8).drop (8 + k) = u.drop (8 + k) := by
      intro k
      rw [← List.drop_drop, List.drop_left' h8, List.drop_drop]
    have e4 : (u.take 4 ++ tag ++ u.drop 8).drop 8 = u.drop 8 := List.drop_left' h8
    have e5 : (u.take 4 ++ tag ++ u.drop 8).drop (12 + min (Uint32 (u.take 4)) maxRW)
        = u.drop (12 + min (Uint32 (u.take 4)) maxRW) := by
      have := e3 (4 + min (Uint32 (u.take 4)) maxRW)
      rw [← Nat.add_assoc] at this
      exact this
    have hlen : (u.take 4 ++ tag ++ u.drop 8).length = u.length := by
      simp only [List.length_append, List.length_drop, h4, ht]
      omega
    have hlt2 : 8 + min (Uint32 ((u.take 4 ++ tag ++ u.drop 8).take 4)) maxRW
        < (u.take 4 ++ tag ++ u.drop 8).length := by
      rw [e1, hlen]; exact hlt
    rw [readChunk_of_lt _ hlt2, e1, e2, e3, e4, e5, List.take_left' ht]

/-- Witness for C6: a chunk tagged "tEXt" is read as `OtherType`. -/
theorem type_classification_witness :
    readChunk ⟨[0, 0, 0, 0, 116, 69, 88, 116, 0, 0, 0, 1]⟩ =
        (Result.ok ⟨[116, 69, 88, 116], chunkType.OtherType, 0, [], 1⟩, ⟨[]⟩) ∧
      (chunkType.OtherType = chunkType.OtherType ↔
        ([116, 69, 88, 116] : List Byte) ≠ strIHDR ∧ ([116, 69, 88, 116] : List Byte) ≠ strIDAT ∧
          ([116, 69, 88, 116] : List Byte) ≠ strIEND) :=
  ⟨by decide,
   (type_classification [0, 0, 0, 0, 116, 69, 88, 116, 0, 0, 0, 1]
     ⟨[116, 69, 88, 116], chunkType.OtherType, 0, [], 1⟩ ⟨[]⟩ (by decide)).2.2.2.2.2.1⟩

/-- C7 (zero-length payload): when the next twelve unread bytes are `0,0,0,0`, a
four-byte tag and four checksum bytes, `readChunk` succeeds with `size = 0` and empty
`data`, whatever follows, also when nothing follows; and on the file made of the
signature, `0,0,0,0`, "IEND" and `0,0,0,0`, `main` finds the signature valid and
reports exactly the record "IEND", `EndType`, size 0, and ends without error. -/
theorem zero_length_payload (tag crc t : List Byte) (ht : tag.length = 4)
    (hc : crc.length = 4) :
    readChunk ⟨[0, 0, 0, 0] ++ tag ++ crc ++ t⟩ =
        (Result.ok ⟨tag, classify tag, 0, [], Uint32 crc⟩, ⟨t⟩) ∧
      readChunk ⟨[0, 0, 0, 0] ++ tag ++ crc⟩ =
        (Result.ok ⟨tag, classify tag, 0, [], Uint32 crc⟩, ⟨[]⟩) ∧
      main ⟨pngSignature ++ [0, 0, 0, 0] ++ strIEND ++ [0, 0, 0, 0]⟩ =
        MainRun.chunks true ⟨[⟨strIEND, chunkType.EndType, 0, [], 0⟩], Outcome.ended, ⟨[]⟩⟩ := by
  have key : ∀ t : List Byte, readChunk ⟨[0, 0, 0, 0] ++ tag ++ crc ++ t⟩ =
      (Result.ok ⟨tag, classify tag, 0, [], Uint32 crc⟩, ⟨t⟩) := by
    intro t
    have h := readChunk_append [0, 0, 0, 0] tag [] crc t rfl ht hc (by decide) (Nat.zero_le _)
    simpa using h
  refine ⟨key t, ?_, by decide⟩
  have h := key []
  rwa [List.append_nil] at h

/-- Witness for C7: the chunk "IEND" of length zero as the last twelve bytes. -/
theorem zero_length_payload_witness :
    strIEND.length = 4 ∧ ([0, 0, 0, 0] : List Byte).length = 4 ∧
      readChunk ⟨[0, 0, 0, 0] ++ strIEND ++ [0, 0, 0, 0]⟩ =
        (Result.ok ⟨strIEND, classify strIEND, 0, [], Uint32 [0, 0, 0, 0]⟩, ⟨[]⟩) :=
  ⟨by decide, by decide,
   (zero_length_payload strIEND [0, 0, 0, 0] [] (by decide) (by decide)).2.1⟩

/-- C8 (signature validation): `compareBytes(a, b)` is true exactly when the two
slices have the same length and the same byte at every index, that is when they are
equal; so `compareBytes(buf, pngSignature)` is true exactly when `buf` is the eight
bytes 137, 80, 78, 71, 13, 10, 26, 10. -/
theorem signature_validation (a b buf : List Byte) :
    (compareBytes a b = true ↔
        a.length = b.length ∧ ∀ i, i < a.length → a[i]? = b[i]?) ∧
      (compareBytes a b = true ↔ a = b) ∧
      (compareBytes buf pngSignature = true ↔ buf = [137, 80, 78, 71, 13, 10, 26, 10]) := by
  refine ⟨?_, compareBytes_eq_true a b, compareBytes_eq_true buf pngSignature⟩
  rw [compareBytes_eq_true]
  constructor
  · intro h
    subst h
    exact ⟨rfl, fun _ _ => rfl⟩
  · rintro ⟨hl, hi⟩
    apply List.ext_getElem? 
    intro i
    rcases Nat.lt_or_ge i a.length with h | h
    · exact hi i h
    · rw [List.getElem?_eq_none h, List.getElem?_eq_none (by omega)]

/-- C9 (signature independence): on two inputs of at least eight bytes that agree
from offset 8 on, the signature read consumes exactly the first eight bytes of each,
and `main` runs the chunk loop on the same remaining bytes, so both runs report the
same chunks and stop the same way; only the validity flag depends on the first eight
bytes. -/
theorem signature_independence (a b : List Byte) (ha : 8 ≤ a.length) (hb : 8 ≤ b.length)
    (hab : a.drop 8 = b.drop 8) :
    readBytes ⟨a⟩ 8 = (Result.ok (a.take 8), ⟨a.drop 8⟩) ∧
      readBytes ⟨b⟩ 8 = (Result.ok (b.take 8), ⟨b.drop 8⟩) ∧
      main ⟨a⟩ = MainRun.chunks (compareBytes (a.take 8) pngSignature) (readChunks ⟨a.drop 8⟩) ∧
      main ⟨b⟩ = MainRun.chunks (compareBytes (b.take 8) pngSignature) (readChunks ⟨a.drop 8⟩) := by
  refine ⟨readBytes_eight a ha, readBytes_eight b hb, ?_, ?_⟩
  · unfold main
    rw [readBytes_eight a ha]
  · unfold main
    rw [readBytes_eight b hb, hab]

/-- Witness for C9: the signature, and eight zero bytes, before one "IEND" chunk. -/
theorem signature_independence_witness :
    main ⟨pngSignature ++ [0, 0, 0, 0, 73, 69, 78, 68, 0, 0, 0, 0]⟩ =
        MainRun.chunks true ⟨[⟨strIEND, chunkType.EndType, 0, [], 0⟩], Outcome.ended, ⟨[]⟩⟩ ∧
      main ⟨[0, 0, 0, 0, 0, 0, 0, 0] ++ [0, 0, 0, 0, 73, 69, 78, 68, 0, 0, 0, 0]⟩ =
        MainRun.chunks false ⟨[⟨strIEND, chunkType.EndType, 0, [], 0⟩], Outcome.ended, ⟨[]⟩⟩ := by
  have h := signature_independence (pngSignature ++ [0, 0, 0, 0, 73, 69, 78, 68, 0, 0, 0, 0])
    ([0, 0, 0, 0, 0, 0, 0, 0] ++ [0, 0, 0, 0, 73, 69, 78, 68, 0, 0, 0, 0])
    (by decide) (by decide) (by decide)
  refine ⟨?_, ?_⟩
  · rw [h.2.2.1]; decide
  · rw [h.2.2.2]; decide

/-- C10 (checksum captured, not verified), evaluated where it fails: the complete
chunk "IDAT" with a payload of `maxRW + 1 = 2^30 + 1` bytes 170 followed by the
checksum bytes 1, 2, 3, 4. The four bytes after the payload are 1, 2, 3, 4, with the
big-endian value 0x01020304, but the payload read stops one byte early with no error
and the `crc` returned is 0xaa010203, made of the last payload byte and the first
three checksum bytes. -/
theorem checksum_misread_above_read_limit :
    (([64, 0, 0, 1] ++ strIDAT ++ List.replicate (maxRW + 1) 170 ++ [1, 2, 3, 4] :
        List Byte).drop (8 + (maxRW + 1))).take 4 = [1, 2, 3, 4] ∧
    Uint32 [64, 0, 0, 1] = maxRW + 1 ∧
    Uint32 [1, 2, 3, 4] = 0x01020304 ∧
    ∃ c f1, readChunk ⟨[64, 0, 0, 1] ++ strIDAT ++ List.replicate (maxRW + 1) 170
        ++ [1, 2, 3, 4]⟩ = (Result.ok c, f1) ∧
      c.crc = 0xaa010203 ∧ c.crc ≠ Uint32 [1, 2, 3, 4] := by
  refine ⟨?_, by decide, by decide, _, _, readChunk_one_byte_above_limit, rfl, by decide⟩
  rw [List.drop_left' (by
    simp only [List.length_append, List.length_replicate, List.length_cons, List.length_nil,
      strIDAT])]
  rfl

/-- C4 (terminator stops the loop): if the chunk loop reports a chunk tagged "IEND",
then that chunk is the last one reported and the loop ends normally; the file is left
as the read of that chunk left it, with the cursor right after the frames of the
reported chunks, so nothing is read after the checksum of "IEND"; and every input that
agrees with this one up to that offset gives the same reported chunks and the same
normal end, its cursor at the same offset: the bytes after the checksum play no part. -/
theorem terminator_stops_loop (u : List Byte) (i : Nat) (c : chunk)
    (hi : (readChunks ⟨u⟩).reported[i]? = some c) (hc : c.typDesc = strIEND) :
    i + 1 = (readChunks ⟨u⟩).reported.length ∧
      (readChunks ⟨u⟩).outcome = Outcome.ended ∧
      (∃ f0, readChunk f0 = (Result.ok c, (readChunks ⟨u⟩).file)) ∧
      (readChunks ⟨u⟩).file = ⟨u.drop (framesLength (readChunks ⟨u⟩).reported)⟩ ∧
      ∀ v : List Byte,
        v.take (framesLength (readChunks ⟨u⟩).reported)
          = u.take (framesLength (readChunks ⟨u⟩).reported) →
        readChunks ⟨v⟩ = ⟨(readChunks ⟨u⟩).reported, Outcome.ended,
          ⟨v.drop (framesLength (readChunks ⟨u⟩).reported)⟩⟩ := by
  obtain ⟨h1, h2, h3⟩ := readChunks_end_last ⟨u⟩ i c hi hc
  obtain ⟨h4, h5⟩ := readChunks_ended_congr ⟨u⟩ h2
  exact ⟨h1, h2, h3, h4, h5⟩

/-- Witness for C4: an "IHDR" chunk, an "IEND" chunk and three trailing bytes; the
trailing bytes are then replaced by two others. -/
theorem terminator_stops_loop_witness :
    (readChunks ⟨[0, 0, 0, 1, 73, 72, 68, 82, 7, 0, 0, 0, 0,
        0, 0, 0, 0, 73, 69, 78, 68, 0, 0, 0, 9, 1, 2, 3]⟩).reported[1]?
      = some ⟨strIEND, chunkType.EndType, 0, [], 9⟩ ∧
    readChunks ⟨[0, 0, 0, 1, 73, 72, 68, 82, 7, 0, 0, 0, 0,
        0, 0, 0, 0, 73, 69, 78, 68, 0, 0, 0, 9, 1, 2, 3]⟩ =
      ⟨[⟨strIHDR, chunkType.HeaderType, 1, [7], 0⟩, ⟨strIEND, chunkType.EndType, 0, [], 9⟩],
        Outcome.ended, ⟨[1, 2, 3]⟩⟩ ∧
    readChunks ⟨[0, 0, 0, 1, 73, 72, 68, 82, 7, 0, 0, 0, 0,
        0, 0, 0, 0, 73, 69, 78, 68, 0, 0, 0, 9, 200, 201]⟩ =
      ⟨[⟨strIHDR, chunkType.HeaderType, 1, [7], 0⟩, ⟨strIEND, chunkType.EndType, 0, [], 9⟩],
        Outcome.ended, ⟨[200, 201]⟩⟩ := by
  have h := terminator_stops_loop [0, 0, 0, 1, 73, 72, 68, 82, 7, 0, 0, 0, 0,
    0, 0, 0, 0, 73, 69, 78, 68, 0, 0, 0, 9, 1, 2, 3] 1 ⟨strIEND, chunkType.EndType, 0, [], 9⟩
    (by decide) (by decide)
  have hv := h.2.2.2.2 [0, 0, 0, 1, 73, 72, 68, 82, 7, 0, 0, 0, 0,
    0, 0, 0, 0, 73, 69, 78, 68, 0, 0, 0, 9, 200, 201] (by decide)
  refine ⟨by decide, by decide, ?_⟩
  rw [hv]
  decide

/-- C11 (declared size decoding): when the next four unread bytes are `b0, b1, b2, b3`
and `readChunk` succeeds, `size` is `b0*2^24 + b1*2^16 + b2*2^8 + b3`; it is the 64-bit
`int` conversion of that number, never negative and below `2^32`. -/
theorem declared_size_decoding (b0 b1 b2 b3 : Byte) (rest : List Byte) (c : chunk) (f1 : File)
    (h : readChunk ⟨b0 :: b1 :: b2 :: b3 :: rest⟩ = (Result.ok c, f1)) :
    c.size = ((b0.val * 2 ^ 24 + b1.val * 2 ^ 16 + b2.val * 2 ^ 8 + b3.val : Nat) : Int) ∧
      c.size = int64OfNat (Uint32 [b0, b1, b2, b3]) ∧
      0 ≤ c.size ∧ c.size < 2 ^ 32 := by
  obtain ⟨_, hc, _⟩ := readChunk_ok_inv _ c f1 h
  have e : (b0 :: b1 :: b2 :: b3 :: rest).take 4 = [b0, b1, b2, b3] := rfl
  rw [e] at hc
  have hs : c.size = (Uint32 [b0, b1, b2, b3] : Int) := by rw [hc]
  have hlt := Uint32_lt [b0, b1, b2, b3]
  have heq := Uint32_eq [b0, b1, b2, b3]
  simp only [List.getD_cons_zero, List.getD_cons_succ] at heq
  refine ⟨by rw [hs, heq], by rw [hs, int64OfNat_Uint32], by rw [hs]; omega, ?_⟩
  rw [hs]
  exact_mod_cast hlt

/-- Witness for C11: a chunk whose length bytes are 0, 0, 0, 2 is read with size 2. -/
theorem declared_size_decoding_witness :
    readChunk ⟨[0, 0, 0, 2, 73, 68, 65, 84, 5, 6, 0, 0, 0, 1, 9]⟩ =
        (Result.ok ⟨strIDAT, chunkType.DataType, 2, [5, 6], 1⟩, ⟨[9]⟩) ∧
      (2 : Int) = ((0 * 2 ^ 24 + 0 * 2 ^ 16 + 0 * 2 ^ 8 + 2 : Nat) : Int) :=
  ⟨by decide,
   (declared_size_decoding 0 0 0 2 [73, 68, 65, 84, 5, 6, 0, 0, 0, 1, 9]
     ⟨strIDAT, chunkType.DataType, 2, [5, 6], 1⟩ ⟨[9]⟩ (by decide)).1⟩

/-- C14 (cursor advance), evaluated where it fails: the file holds exactly the complete
chunk "IDAT" with a payload of `L = maxRW + 1 = 2^30 + 1` bytes, that is `12 + L`
bytes, so the first byte after the checksum is the end of the file. `readChunk`
succeeds but leaves the last checksum byte unread: it has consumed `11 + L` bytes, and
the next `readChunk` starts inside the checksum, not at a length field. -/
theorem cursor_short_above_read_limit :
    ([64, 0, 0, 1] ++ strIDAT ++ List.replicate (maxRW + 1) 170 ++ [1, 2, 3, 4] :
        List Byte).length = 12 + (maxRW + 1) ∧
    Uint32 (([64, 0, 0, 1] ++ strIDAT ++ List.replicate (maxRW + 1) 170 ++ [1, 2, 3, 4] :
        List Byte).take 4) = maxRW + 1 ∧
    ([64, 0, 0, 1] ++ strIDAT ++ List.replicate (maxRW + 1) 170 ++ [1, 2, 3, 4] :
        List Byte).drop (12 + (maxRW + 1)) = [] ∧
    (readChunk ⟨[64, 0, 0, 1] ++ strIDAT ++ List.replicate (maxRW + 1) 170
        ++ [1, 2, 3, 4]⟩).2 = ⟨[4]⟩ ∧
    (readChunk ⟨[64, 0, 0, 1] ++ strIDAT ++ List.replicate (maxRW + 1) 170
        ++ [1, 2, 3, 4]⟩).1.isOk = true ∧
    readChunk ⟨[4]⟩ =
      (Result.error (GoError.Errorf "error reading chunk type : " GoError.EOF), ⟨[]⟩) := by
  have key : ∀ m : Nat, ([64, 0, 0, 1] ++ strIDAT ++ List.replicate (m + 1) 170 ++ [1, 2, 3, 4] :
      List Byte).length = 12 + (m + 1) := by
    intro m
    simp only [List.length_append, List.length_replicate, List.length_cons, List.length_nil,
      strIDAT]
    omega
  have hlen := key maxRW
  refine ⟨hlen, ?_, ?_, ?_, ?_, by decide⟩
  · have h4 : ([64, 0, 0, 1] : List Byte).length = 4 := rfl
    rw [List.append_assoc, List.append_assoc, List.take_left' h4]
    decide
  · rw [List.drop_eq_nil_iff, hlen]
  · rw [readChunk_one_byte_above_limit]
  · rw [readChunk_one_byte_above_limit]
    rfl

/-- C13 (termination): on a file with finitely many unread bytes the chunk loop needs no
more iterations than there are unread bytes plus one: with any larger budget it gives
the one result `readChunks f`, which stops either right after an `EndType` chunk or
with a read error (never by exhausting the budget, never by a panic) and reports at
most as many chunks as there are unread bytes. Chunks of length zero that are not
"IEND" make no exception: each successful read consumes at least one byte. -/
theorem chunk_loop_terminates (f : File) (n : Nat) (hn : f.unread.length < n) :
    chunkLoop n f = readChunks f ∧
      (chunkLoop n f).outcome ≠ Outcome.outOfFuel ∧
      (chunkLoop n f).outcome ≠ Outcome.panicked ∧
      (((chunkLoop n f).outcome = Outcome.ended ∧
          ∃ c, (chunkLoop n f).reported.getLast? = some c ∧ c.typ = chunkType.EndType) ∨
        ∃ e, (chunkLoop n f).outcome = Outcome.failed e) ∧
      (chunkLoop n f).reported.length ≤ f.unread.length ∧
      (∀ c f1, readChunk f = (Result.ok c, f1) → f1.unread.length < f.unread.length) := by
  have e : chunkLoop n f = readChunks f :=
    chunkLoop_fuel n (f.unread.length + 1) f hn (by omega)
  obtain ⟨h1, h2⟩ := readChunks_stops f
  rw [e]
  refine ⟨rfl, ?_, ?_, h1, h2, fun c f1 h => readChunk_ok_length f f1 c h⟩
  · rcases h1 with ⟨ho, _⟩ | ⟨e1, he⟩
    · rw [ho]; simp
    · rw [he]; simp
  · rcases h1 with ⟨ho, _⟩ | ⟨e1, he⟩
    · rw [ho]; simp
    · rw [he]; simp

/-- Witness for C13: two "IDAT" chunks of length zero and nothing else; the loop reports
both and stops with the end-of-file error of the third length read. -/
theorem chunk_loop_terminates_witness :
    chunkLoop 25 ⟨[0, 0, 0, 0, 73, 68, 65, 84, 0, 0, 0, 0,
        0, 0, 0, 0, 73, 68, 65, 84, 0, 0, 0, 0]⟩ =
      ⟨[⟨strIDAT, chunkType.DataType, 0, [], 0⟩, ⟨strIDAT, chunkType.DataType, 0, [], 0⟩],
        Outcome.failed (GoError.Errorf "error reading chunk size : " GoError.EOF), ⟨[]⟩⟩ ∧
    (chunkLoop 25 ⟨[0, 0, 0, 0, 73, 68, 65, 84, 0, 0, 0, 0,
        0, 0, 0, 0, 73, 68, 65, 84, 0, 0, 0, 0]⟩).outcome ≠ Outcome.outOfFuel :=
  ⟨by decide,
   (chunk_loop_terminates ⟨[0, 0, 0, 0, 73, 68, 65, 84, 0, 0, 0, 0,
        0, 0, 0, 0, 73, 68, 65, 84, 0, 0, 0, 0]⟩ 25 (by decide)).2.1⟩

/-- C12 (fail-fast error policy): `readChunk` returns an error (and no record) exactly
when one of its four reads, taken in the order size, type, data, CRC, fails after the
earlier ones succeeded; the error wraps the error of that first failing read and the
file is left as that read left it, so no later read has moved it; `readChunk` never
panics. In the chunk loop, once `readChunk` has returned the records `cs` (none of
type `EndType`) and then fails with `e`, the run is exactly `cs` reported, failure `e`,
and the file as the failing call left it; and every run that fails has this form. -/
theorem fail_fast (f f1 fk : File) (e : GoError) (cs : List chunk) :
    (readChunk f = (Result.error e, f1) ↔
      (∃ e0, readBytes f 4 = (Result.error e0, f1) ∧
        e = GoError.Errorf "error reading chunk size : " e0) ∨
      (∃ b1 g1 e0, readBytes f 4 = (Result.ok b1, g1) ∧
        readBytes g1 4 = (Result.error e0, f1) ∧
        e = GoError.Errorf "error reading chunk type : " e0) ∨
      (∃ b1 g1 b2 g2 e0, readBytes f 4 = (Result.ok b1, g1) ∧
        readBytes g1 4 = (Result.ok b2, g2) ∧
        readBytes g2 (int64OfNat (Uint32 b1)) = (Result.error e0, f1) ∧
        e = GoError.Errorf "error reading chunk data : " e0) ∨
      (∃ b1 g1 b2 g2 b3 g3 e0, readBytes f 4 = (Result.ok b1, g1) ∧
        readBytes g1 4 = (Result.ok b2, g2) ∧
        readBytes g2 (int64OfNat (Uint32 b1)) = (Result.ok b3, g3) ∧
        readBytes g3 4 = (Result.error e0, f1) ∧
        e = GoError.Errorf "error reading chunk CRC : " e0)) ∧
      readChunk f ≠ (Result.panic, f1) ∧
      (replay f cs = some fk → readChunk fk = (Result.error e, f1) →
        readChunks f = ⟨cs, Outcome.failed e, f1⟩) ∧
      ((readChunks f).outcome = Outcome.failed e →
        ∃ g, replay f (readChunks f).reported = some g ∧
          readChunk g = (Result.error e, (readChunks f).file)) := by
  refine ⟨readChunk_error_iff f f1 e, readChunk_ne_panic f f1, ?_, readChunks_failed_replay f e⟩
  intro hrep herr
  rw [readChunks_of_replay cs f fk hrep, readChunks_step, herr]
  simp

/-- Witness for C12: an "IHDR" chunk followed by a chunk whose payload is missing; the
first record is reported, the data read of the second chunk fails, and the run stops
with that error. -/
theorem fail_fast_witness :
    replay ⟨[0, 0, 0, 0, 73, 72, 68, 82, 0, 0, 0, 0, 0, 0, 0, 5, 73, 68, 65, 84]⟩
        [⟨strIHDR, chunkType.HeaderType, 0, [], 0⟩] =
      some ⟨[0, 0, 0, 5, 73, 68, 65, 84]⟩ ∧
    readChunk ⟨[0, 0, 0, 5, 73, 68, 65, 84]⟩ =
      (Result.error (GoError.Errorf "error reading chunk data : " GoError.EOF), ⟨[]⟩) ∧
    readChunks ⟨[0, 0, 0, 0, 73, 72, 68, 82, 0, 0, 0, 0, 0, 0, 0, 5, 73, 68, 65, 84]⟩ =
      ⟨[⟨strIHDR, chunkType.HeaderType, 0, [], 0⟩],
        Outcome.failed (GoError.Errorf "error reading chunk data : " GoError.EOF), ⟨[]⟩⟩ :=
  ⟨by decide, by decide,
   (fail_fast ⟨[0, 0, 0, 0, 73, 72, 68, 82, 0, 0, 0, 0, 0, 0, 0, 5, 73, 68, 65, 84]⟩ ⟨[]⟩
     ⟨[0, 0, 0, 5, 73, 68, 65, 84]⟩ (GoError.Errorf "error reading chunk data : " GoError.EOF)
     [⟨strIHDR, chunkType.HeaderType, 0, [], 0⟩]).2.2.1 (by decide) (by decide)⟩

/-- C15 (reverseBytes): for every slice `b` of length `n` the loop of `reverseBytes`
runs to its end without an index out of range, and the slice after the call has the
same length, holds at every index `i < n` the byte that was at index `n - 1 - i`, is the
reversed list, and a second call gives back the original slice. -/
theorem reverseBytes_reverses (b : List Byte) :
    ∃ r, reverseBytes b = some r ∧ r.length = b.length ∧
      (∀ i, i < b.length → r[i]? = b[b.length - 1 - i]?) ∧
      r = b.reverse ∧ reverseBytes r = some b := by
  refine ⟨b.reverse, reverseBytes_eq b, List.length_reverse b, ?_, rfl, ?_⟩
  · intro i hi
    exact List.getElem?_reverse hi
  · rw [reverseBytes_eq, List.reverse_reverse]

end Png
